import Mathlib

set_option maxRecDepth 40000

/-!
# Verification of the NoteFlow PDF composition and layout engine

Shallow embedding of `src/server/src/utils/pdfGenerator.js` (the document
assembler `generateDocumentFromContent` and the layout engine `generatePDF`
with its `addText` / `addImage` helpers).

Modelling conventions:
* Coordinates, font sizes and pixel dimensions are rationals (`ℚ`); the
  JavaScript numbers in the relevant code paths are exact in binary or
  decimal and the claims are about order comparisons and exact constants.
  Arithmetic inside the model is performed by the kernel-computable
  wrappers `qadd`/`qsub`/`qmul`/`qdiv`/`qmin`/`qlt`/`qle` proved equal to
  the standard `ℚ` operations below, so that concrete runs of the model
  evaluate by `decide`.
* The pdf-lib primitives (`widthOfTextAtSize`, `drawText`, `embedPng` /
  `embedJpg`) are external; they are abstracted by a `Prims` structure.
  A `drawText` call that throws is a `.error msg`; `embedPng`/`embedJpg`
  failures are collapsed into `decode : Buffer → Option (ℚ × ℚ)` returning
  the natural pixel dimensions on success (both failures are swallowed by
  the source and produce `null`).
* JavaScript strings are modelled by Lean `String`; the regexes of the
  source are transcribed character by character.  JS code units `≥ 0x80`
  are replaced by one space in the model (a JS astral pair would give two
  spaces; no claim depends on astral characters).
* Optional / falsy fields (`section.heading`, `imageCaption`, flowchart
  `name`) are modelled as `String` with `""` playing the role of every
  falsy value, and `imageBuffer` as `Option Buffer` (`none` = null; a
  present-but-empty buffer is truthy in JS, hence `some []`).
* Exceptions are `Except String`.  Mutation of the closed-over
  `currentPage`/`y` variables is explicit state passing of `St`.
-/

/-! ## Computable rational arithmetic

Mathlib's `ℚ` operations are `@[irreducible]`, so a model written with
them cannot be evaluated by `decide`.  The wrappers below compute with
`mkRat` and integer arithmetic (kernel-reducible) and are proved equal to
the standard operations. -/

/-- Computable `a + b` on `ℚ`. -/
def qadd (a b : ℚ) : ℚ := mkRat (a.num * b.den + b.num * a.den) (a.den * b.den)

/-- Computable `a - b` on `ℚ`. -/
def qsub (a b : ℚ) : ℚ := mkRat (a.num * b.den - b.num * a.den) (a.den * b.den)

/-- Computable `a * b` on `ℚ`. -/
def qmul (a b : ℚ) : ℚ := mkRat (a.num * b.num) (a.den * b.den)

/-- Computable `b⁻¹` on `ℚ`. -/
def qinv (b : ℚ) : ℚ :=
  if b.num < 0 then mkRat (-(b.den : ℤ)) b.num.natAbs else mkRat (b.den : ℤ) b.num.natAbs

/-- Computable `a / b` on `ℚ`. -/
def qdiv (a b : ℚ) : ℚ := qmul a (qinv b)

/-- Computable `a < b` on `ℚ`. -/
def qlt (a b : ℚ) : Bool := decide (a.num * (b.den : ℤ) < b.num * (a.den : ℤ))

/-- Computable `a ≤ b` on `ℚ`. -/
def qle (a b : ℚ) : Bool := decide (a.num * (b.den : ℤ) ≤ b.num * (a.den : ℤ))

/-- Computable `min a b` on `ℚ` (JS `Math.min`). -/
def qmin (a b : ℚ) : ℚ := if qle a b then a else b

/-- Computable cast `ℕ → ℚ`. -/
def qNat (n : ℕ) : ℚ := mkRat n 1

theorem denQ_ne (a : ℚ) : ((a.den : ℚ)) ≠ 0 := by
  exact_mod_cast a.den_nz

theorem denQ_pos (a : ℚ) : (0 : ℚ) < (a.den : ℚ) := by
  exact_mod_cast a.pos

theorem qadd_eq (a b : ℚ) : qadd a b = a + b := by
  rw [qadd, Rat.mkRat_eq_div]
  push_cast
  conv_rhs => rw [← Rat.num_div_den a, ← Rat.num_div_den b]
  rw [div_add_div _ _ (denQ_ne a) (denQ_ne b)]
  ring_nf

theorem qsub_eq (a b : ℚ) : qsub a b = a - b := by
  rw [qsub, Rat.mkRat_eq_div]
  push_cast
  conv_rhs => rw [← Rat.num_div_den a, ← Rat.num_div_den b]
  rw [div_sub_div _ _ (denQ_ne a) (denQ_ne b)]
  ring_nf

theorem qmul_eq (a b : ℚ) : qmul a b = a * b := by
  rw [qmul, Rat.mkRat_eq_div]
  push_cast
  conv_rhs => rw [← Rat.num_div_den a, ← Rat.num_div_den b]
  rw [div_mul_div_comm]

theorem qinv_eq (b : ℚ) : qinv b = b⁻¹ := by
  have key : qinv b = (b.den : ℚ) / (b.num : ℚ) := by
    rw [qinv]
    by_cases h : b.num < 0
    · rw [if_pos h, Rat.mkRat_eq_div]
      push_cast [Int.cast_natAbs]
      rw [abs_of_neg (by exact_mod_cast h : (b.num : ℚ) < 0), neg_div_neg_eq]
    · rw [if_neg h, Rat.mkRat_eq_div]
      push_cast [Int.cast_natAbs]
      rw [abs_of_nonneg (by exact_mod_cast not_lt.mp h : (0 : ℚ) ≤ (b.num : ℚ))]
  rw [key]
  conv_rhs => rw [← Rat.num_div_den b]
  rw [inv_div]

theorem qdiv_eq (a b : ℚ) : qdiv a b = a / b := by
  rw [qdiv, qmul_eq, qinv_eq, div_eq_mul_inv]

theorem qlt_iff (a b : ℚ) : qlt a b = true ↔ a < b := by
  rw [qlt, decide_eq_true_eq]
  constructor
  · intro h
    rw [← Rat.num_div_den a, ← Rat.num_div_den b, div_lt_div_iff₀ (denQ_pos a) (denQ_pos b)]
    exact_mod_cast h
  · intro h
    rw [← Rat.num_div_den a, ← Rat.num_div_den b, div_lt_div_iff₀ (denQ_pos a) (denQ_pos b)] at h
    exact_mod_cast h

theorem qle_iff (a b : ℚ) : qle a b = true ↔ a ≤ b := by
  rw [qle, decide_eq_true_eq]
  constructor
  · intro h
    rw [← Rat.num_div_den a, ← Rat.num_div_den b, div_le_div_iff₀ (denQ_pos a) (denQ_pos b)]
    exact_mod_cast h
  · intro h
    rw [← Rat.num_div_den a, ← Rat.num_div_den b, div_le_div_iff₀ (denQ_pos a) (denQ_pos b)] at h
    exact_mod_cast h

theorem qlt_eq_false_iff (a b : ℚ) : qlt a b = false ↔ b ≤ a := by
  rw [← not_lt, ← qlt_iff]
  cases qlt a b <;> simp

theorem qmin_eq (a b : ℚ) : qmin a b = min a b := by
  rw [qmin, min_def]
  by_cases h : a ≤ b
  · rw [if_pos ((qle_iff a b).mpr h), if_pos h]
  · rw [if_neg, if_neg h]
    simp only [qle_iff]
    exact h

theorem qNat_eq (n : ℕ) : qNat n = (n : ℚ) := by
  rw [qNat, Rat.mkRat_eq_div]
  simp

/-! ## String helpers (transcriptions of the JS string operations) -/

/-- `hasPref needle hay`: `needle` is a prefix of `hay` (char lists). -/
def hasPref : List Char → List Char → Bool
  | [], _ => true
  | _ :: _, [] => false
  | a :: as, b :: bs => a == b && hasPref as bs

/-- `hasSub needle hay`: `needle` occurs as a contiguous run in `hay`. -/
def hasSub : List Char → List Char → Bool
  | n, [] => n.isEmpty
  | n, h :: t => hasPref n (h :: t) || hasSub n t

/-- JS `hay.includes(needle)`. -/
def strIncl (hay needle : String) : Bool :=
  hasSub needle.toList hay.toList

/-- JS `s.endsWith(suffix)`. -/
def endsW (s suffix : String) : Bool :=
  hasPref suffix.toList.reverse s.toList.reverse

/-- JS `s.toLowerCase()` (ASCII range, which is all that survives
sanitization in the relevant call sites). -/
def lowerStr (s : String) : String :=
  String.mk (s.toList.map Char.toLower)

/-- The regex `/[^\x20-\x7E]/g → ''`: strip all non-printable / non-ASCII
characters (the "heavily sanitized" retry of a failed `drawText`). -/
def stripNP (s : String) : String :=
  String.mk (s.toList.filter fun c => 0x20 ≤ c.toNat && c.toNat ≤ 0x7E)

/-- The regex `/[\r\n\u0080-￿]/g → ' '` used before width
measurement. -/
def cleanRN (s : String) : String :=
  String.mk (s.toList.map fun c =>
    if c = '\r' || c = '\n' || 0x80 ≤ c.toNat then ' ' else c)

/-- The regex `/[\u0080-￿]/g → ' '` (addText sanitization step 2). -/
def spaceNonAscii (s : String) : String :=
  String.mk (s.toList.map fun c => if 0x80 ≤ c.toNat then ' ' else c)

/-- The regex `/([^\r])\n/g → '$1 \n'` (addText sanitization step 1):
insert a space before each `\n` whose predecessor is not `\r`; global
replacement consumes two characters per match. -/
def spaceBeforeNL : List Char → List Char
  | '\r' :: rest => '\r' :: spaceBeforeNL rest
  | a :: '\n' :: rest => a :: ' ' :: '\n' :: spaceBeforeNL rest
  | a :: rest => a :: spaceBeforeNL rest
  | [] => []

/-- The regex `/[\r\n]+/g → ' '` (recovery path): collapse each maximal
run of CR/LF into one space. -/
def collapseNL : List Char → List Char
  | [] => []
  | c :: rest =>
    if c = '\r' || c = '\n' then
      match rest with
      | d :: rest' =>
        if d = '\r' || d = '\n' then collapseNL (d :: rest')
        else ' ' :: collapseNL (d :: rest')
      | [] => [' ']
    else c :: collapseNL rest

/-- The regex `/[\u0080-￿\n\r]/g → ' '` (error-PDF sanitization). -/
def spaceBad (s : String) : String :=
  String.mk (s.toList.map fun c =>
    if 0x80 ≤ c.toNat || c = '\n' || c = '\r' then ' ' else c)

/-- The regex `/[^\x20-\x7E]/g → ' '` (recovery-path summary
sanitization: non-printables become spaces, not deleted). -/
def spaceNP (s : String) : String :=
  String.mk (s.toList.map fun c =>
    if 0x20 ≤ c.toNat && c.toNat ≤ 0x7E then c else ' ')

/-- JS `String.prototype.split(sep)` with a one-character separator
(auxiliary recursion carrying the current chunk reversed). -/
def splitChAux (sep : Char) : List Char → List Char → List String
  | [], acc => [String.mk acc.reverse]
  | c :: rest, acc =>
    if c = sep then String.mk acc.reverse :: splitChAux sep rest []
    else splitChAux sep rest (c :: acc)

/-- JS `s.split(sep)` (one-character separator; `"".split` gives `[""]`). -/
def splitStr (s : String) (sep : Char) : List String :=
  splitChAux sep s.toList []

/-- ASCII whitespace (all that survives the sanitizers feeding `trim`). -/
def isWS (c : Char) : Bool :=
  c = ' ' || c = '\t' || c = '\n' || c = '\r' || c = '\x0b' || c = '\x0c'

/-- JS `s.trim()`. -/
def trimStr (s : String) : String :=
  String.mk (((s.toList.dropWhile isWS).reverse.dropWhile isWS).reverse)

/-! ## Page geometry and draw-command state -/

/-- Page width in points (US Letter). -/
def pageWidth : ℚ := 612

/-- Page height in points (US Letter). -/
def pageHeight : ℚ := 792

/-- Page margin in points. -/
def margin : ℚ := 50

/-- `pageWidth - margin * 2` (written as the literal so the model
evaluates). -/
def contentWidth : ℚ := 512

theorem contentWidth_eq : contentWidth = pageWidth - margin * 2 := by
  norm_num [contentWidth, pageWidth, margin]

/-- `pageHeight - margin`, the cursor value on a fresh page. -/
def topY : ℚ := 742

theorem topY_eq : topY = pageHeight - margin := by
  norm_num [topY, pageHeight, margin]

/-- The three embedded fonts (`Helvetica`, `HelveticaBold`,
`HelveticaOblique`). -/
inductive Font where
  | body
  | bold
  | italic
deriving DecidableEq, Repr

/-- One draw command placed on a page. -/
inductive Cmd where
  | text (s : String) (font : Font) (size x y : ℚ)
  | image (x y w h : ℚ)
deriving DecidableEq, Repr

/-- The y coordinate a command is drawn at. -/
def Cmd.yPos : Cmd → ℚ
  | .text _ _ _ _ y => y
  | .image _ y _ _ => y

/-- The canvas state: number of pages so far (the current page is the last
one), the chronological list of `(page index, command)` pairs, and the
write cursor `y`. -/
structure St where
  pages : ℕ
  cmds : List (ℕ × Cmd)
  y : ℚ
deriving DecidableEq, Repr

/-- `pdfDoc.addPage(...)` followed by `y = pageHeight - margin`. -/
def newPage (st : St) : St :=
  { pages := st.pages + 1, cmds := st.cmds, y := topY }

/-- Record one draw command on the current page. -/
def push (st : St) (c : Cmd) : St :=
  { st with cmds := st.cmds ++ [(st.pages - 1, c)] }

/-- `y -= d`. -/
def advance (st : St) (d : ℚ) : St :=
  { st with y := qsub st.y d }

/-- `if (y < margin) { currentPage = pdfDoc.addPage(...); y = pageHeight - margin; }` -/
def pagecheck (st : St) : St :=
  if qlt st.y margin then newPage st else st

/-! ## Abstracted pdf-lib primitives -/

/-- An image buffer (a Node `Buffer`): a list of bytes. -/
abbrev Buffer := List ℕ

/-- The external pdf-lib primitives, abstracted:
* `width s q` models `font.widthOfTextAtSize(s, q)`; `.error m` is a
  throw;
* `draw s` models `page.drawText(s, …)`; `.error m` is a throw (the
  source's draw failures depend on the text's characters);
* `decode b` models `embedPng`-then-`embedJpg`: `some (w, h)` is a
  successful embed with natural pixel size `w × h`, `none` means both
  attempts threw. -/
structure Prims where
  width : String → ℚ → Except String ℚ
  draw : String → Except String Unit
  decode : Buffer → Option (ℚ × ℚ)

deriving instance DecidableEq for Except

/-- The per-line advance used by every drawn line (`y -= size * 1.2`). -/
def lineAdvance (size : ℚ) : ℚ := qmul size (mkRat 6 5)

theorem lineAdvance_eq (size : ℚ) : lineAdvance size = size * 1.2 := by
  rw [lineAdvance, qmul_eq]
  norm_num

/-- Effective measured width inside `addText`: `widthOfTextAtSize` with
the character-count fallback `length * (size * 0.6)` when measurement
throws. -/
def widthEff (pr : Prims) (s : String) (size : ℚ) : ℚ :=
  match pr.width s size with
  | .ok w => w
  | .error _ => qmul (qNat s.length) (qmul size (mkRat 3 5))

/-- `drawText` with the sanitize-and-retry recovery: try the raw string;
on failure retry once with all non-printable/non-ASCII characters
stripped; a second failure is returned as the error of the retry.  On
success returns the string that was actually drawn. -/
def drawRetry (pr : Prims) (s : String) : Except String String :=
  match pr.draw s with
  | .ok _ => .ok s
  | .error _ =>
    match pr.draw (stripNP s) with
    | .ok _ => .ok (stripNP s)
    | .error e => .error e

/-! ## `addText` (lines 46–187 of the source) -/

/-- Call-site context of one `addText` invocation. -/
structure TCtx where
  font : Font
  size : ℚ
  indent : ℚ
  maxWidth : ℚ

/-- The word loop of one paragraph (lines 83–145).  The whole loop body
sits in a `try` whose `catch` skips the current word, so a failing
sanitized redraw of a wrapped line is swallowed: the word is dropped and
`line`/`y` are left as they were.  Returns the final state and the
accumulated last line. -/
def procWords (pr : Prims) (c : TCtx) : List String → String → St → St × String
  | [], line, st => (st, line)
  | w :: rest, line, st =>
    if trimStr w = "" then procWords pr c rest line st
    else
      let testLine := line ++ w ++ " "
      let lw := widthEff pr (cleanRN testLine) c.size
      if qlt c.maxWidth lw then
        match drawRetry pr line with
        | .error _ => procWords pr c rest line st
        | .ok s' =>
          let st := push st (.text s' c.font c.size (qadd margin c.indent) st.y)
          let st := pagecheck (advance st (lineAdvance c.size))
          procWords pr c rest (w ++ " ") st
      else procWords pr c rest testLine st

/-- One paragraph (lines 70–177, without the inter-paragraph gap): an
all-whitespace paragraph only advances the cursor by `size * 0.5`; the
final accumulated line is drawn with the sanitize-retry, and a failure of
that retry propagates. -/
def procPara (pr : Prims) (c : TCtx) (par : String) (st : St) : Except String St :=
  if trimStr par = "" then .ok (advance st (qmul c.size (mkRat 1 2)))
  else
    let (st, line) := procWords pr c (splitStr par ' ') "" st
    if trimStr line = "" then .ok st
    else
      match drawRetry pr line with
      | .error e => .error e
      | .ok s' =>
        let st := push st (.text s' c.font c.size (qadd margin c.indent) st.y)
        .ok (advance st (lineAdvance c.size))

/-- The paragraph loop: `size * 0.8` extra gap after every paragraph
except the last. -/
def procParas (pr : Prims) (c : TCtx) : List String → St → Except String St
  | [], st => .ok st
  | [p], st => procPara pr c p st
  | p :: q :: rest, st => do
    let st ← procPara pr c p st
    procParas pr c (q :: rest) (advance st (qmul c.size (mkRat 4 5)))

/-- `addText(text, font, size, color, indent, maxWidth)`: skip falsy
text; sanitize (`spaceBeforeNL` then `spaceNonAscii`); split into
paragraphs on `\n`; process them; then `y -= size * 0.5` and a reactive
page check. -/
def addTextM (pr : Prims) (c : TCtx) (text : String) (st : St) : Except String St :=
  if text = "" then .ok st
  else do
    let paras := splitStr (spaceNonAscii (String.mk (spaceBeforeNL text.toList))) '\n'
    let st ← procParas pr c paras st
    .ok (pagecheck (advance st (qmul c.size (mkRat 1 2))))

/-! ## `addImage` (lines 190–331 of the source) -/

/-- Diagram sizing (lines 241–256): target width `0.5 * contentWidth`,
height by aspect ratio; if that height exceeds `0.4 * pageHeight`,
re-derive the width from the height cap. -/
def diagDims (w h : ℚ) : ℚ × ℚ :=
  let diagramWidth := qmul contentWidth (mkRat 1 2)
  let scaledWidth := diagramWidth
  let scaledHeight := qmul (qdiv h w) diagramWidth
  let maxHeight := qmul pageHeight (mkRat 2 5)
  if qlt maxHeight scaledHeight then (qmul (qdiv w h) maxHeight, maxHeight)
  else (scaledWidth, scaledHeight)

/-- Flowchart sizing (lines 220–240): bounding box `0.8 * contentWidth`
by `0.5 * pageHeight`; scale down uniformly by `min(widthScale,
heightScale)` only when that scale is `< 1`. -/
def flowDims (w h : ℚ) : ℚ × ℚ :=
  let maxFlowchartWidth := qmul contentWidth (mkRat 4 5)
  let maxFlowchartHeight := qmul pageHeight (mkRat 1 2)
  let widthScale := qdiv maxFlowchartWidth w
  let heightScale := qdiv maxFlowchartHeight h
  let scale := qmin widthScale heightScale
  if qlt scale 1 then (qmul w scale, qmul h scale) else (w, h)

/-- What `addImage` returns on success: rendered size, placement, and the
cursor position after the image (and caption) were accounted for
(`bottom` is the source's `bottom: y`, i.e. the page-checked cursor). -/
structure ImgInfo where
  w : ℚ
  h : ℚ
  x : ℚ
  y : ℚ
  bottom : ℚ
deriving DecidableEq, Repr

/-- `addImage(imageBuffer, width, caption, isFlowchart)` (the `width`
parameter of the source is dead: it is never read inside the function).
All failures are caught and reported as `none`; note that a caption
`drawText` throw is caught after the image itself has been drawn, leaving
the cursor where it was. -/
def addImageM (pr : Prims) (buf : Option Buffer) (caption : String)
    (isFlowchart : Bool) (st : St) : St × Option ImgInfo :=
  match buf with
  | none => (st, none)
  | some b =>
    match pr.decode b with
    | none => (st, none)
    | some (w, h) =>
      let dims := if isFlowchart then flowDims w h else diagDims w h
      let totalHeight := qadd dims.2 (if caption ≠ "" then (45 : ℚ) else 20)
      let st := if qlt (qsub st.y totalHeight) margin then newPage st else st
      let x := if isFlowchart then qadd margin (qdiv (qsub contentWidth dims.1) 2) else margin
      let imageY := st.y
      let st := push st (.image x (qsub imageY dims.2) dims.1 dims.2)
      let imageBottom := qsub imageY dims.2
      if caption ≠ "" then
        let captionY := qsub imageBottom 25
        match pr.draw ("Figure: " ++ caption) with
        | .error _ => (st, none)
        | .ok _ =>
          let st := push st (.text ("Figure: " ++ caption) .italic 10 x captionY)
          let st := pagecheck { st with y := qsub captionY (if isFlowchart then 50 else 35) }
          (st, some ⟨dims.1, dims.2, x, imageY, st.y⟩)
      else
        let st := pagecheck { st with y := qsub imageBottom 25 }
        (st, some ⟨dims.1, dims.2, x, imageY, st.y⟩)

/-! ## The side-by-side text + diagram flow (lines 374–637 of the source) -/

/-- Phase-1 inner loop over the `\n`-split parts of a word (lines
443–476).  `first` is true for part index 0 (no pre-advance).  Draws have
no retry here; a throw propagates.  Returns the state, the text cursor,
and the `isTextLongerThanImage` flag. -/
def p1Parts (pr : Prims) (textX imageBottom : ℚ) :
    List String → Bool → ℚ → St → Except String (St × ℚ × Bool)
  | [], _, ty, st => .ok (st, ty, false)
  | p :: rest, true, ty, st =>
    if p ≠ "" then
      match pr.draw p with
      | .error e => .error e
      | .ok _ =>
        let st := push st (.text p .body 12 textX ty)
        let ty := qsub ty 18
        if qlt ty imageBottom then .ok (st, ty, true)
        else p1Parts pr textX imageBottom rest false ty st
    else p1Parts pr textX imageBottom rest false ty st
  | p :: rest, false, ty, st =>
    let ty := qsub ty 18
    if qlt ty imageBottom then .ok (st, ty, true)
    else
      if p ≠ "" then
        match pr.draw p with
        | .error e => .error e
        | .ok _ =>
          let st := push st (.text p .body 12 textX ty)
          let ty := qsub ty 18
          if qlt ty imageBottom then .ok (st, ty, true)
          else p1Parts pr textX imageBottom rest false ty st
      else p1Parts pr textX imageBottom rest false ty st

/-- Phase 1 (lines 405–488): render text in the right column beside the
image.  Accumulation keeps the *cleaned* test line; a wrapped line is
drawn without retry (a throw propagates); after each line advance the
loop breaks with `isTextLongerThanImage = true` as soon as the cursor
passes `imageBottom` — the current word is left unconsumed and the
variable `line` keeps whatever value it had at that point.  Returns
`(state, textY, line, remaining words, longer)`. -/
def phase1 (pr : Prims) (textX textWidth imageBottom : ℚ) :
    List String → String → ℚ → St → Except String (St × ℚ × String × List String × Bool)
  | [], line, ty, st => .ok (st, ty, line, [], false)
  | w :: rest, line, ty, st =>
    let safeWord := cleanRN w
    let testLine := cleanRN (line ++ safeWord ++ " ")
    let lw := match pr.width testLine 12 with
      | .ok q => q
      | .error _ => qmul (qNat testLine.length) 7
    if qlt textWidth lw || strIncl w "\n" then
      match pr.draw line with
      | .error e => .error e
      | .ok _ =>
        let st := push st (.text line .body 12 textX ty)
        let ty := qsub ty 18
        if qlt ty imageBottom then .ok (st, ty, line, w :: rest, true)
        else
          let line1 := if endsW w "\n" then "" else w ++ " "
          if strIncl w "\n" then
            match p1Parts pr textX imageBottom (splitStr w '\n') true ty st with
            | .error e => .error e
            | .ok (st, ty, longer) =>
              if longer then .ok (st, ty, line1, w :: rest, true)
              else phase1 pr textX textWidth imageBottom rest "" ty st
          else phase1 pr textX textWidth imageBottom rest line1 ty st
    else phase1 pr textX textWidth imageBottom rest testLine ty st

/-- Phase-2 inner loop over `\n`-split parts (lines 560–597): full-width
draws with sanitize-retry, page checks after each advance. -/
def p2Parts (pr : Prims) : List String → Bool → St → Except String St
  | [], _, st => .ok st
  | p :: rest, first, st =>
    let st := if first then st else pagecheck (advance st 18)
    if p ≠ "" then
      match drawRetry pr p with
      | .error e => .error e
      | .ok s' =>
        let st := push st (.text s' .body 12 margin st.y)
        p2Parts pr rest false (pagecheck (advance st 18))
    else p2Parts pr rest false st

/-- Phase 2 (lines 522–608): continue wrapping the remaining words at
full content width from the left margin.  The width measurement here has
no fallback (a throw propagates); wrapped lines are drawn with the
sanitize-retry; page breaks are checked after each advance. -/
def phase2 (pr : Prims) : List String → String → St → Except String (St × String)
  | [], line, st => .ok (st, line)
  | w :: rest, line, st =>
    let testLine := line ++ w ++ " "
    match pr.width testLine 12 with
    | .error e => .error e
    | .ok lw =>
      if qlt contentWidth lw || strIncl w "\n" then
        match drawRetry pr line with
        | .error e => .error e
        | .ok s' =>
          let st := push st (.text s' .body 12 margin st.y)
          let st := pagecheck (advance st 18)
          if strIncl w "\n" then
            match p2Parts pr (splitStr w '\n') true st with
            | .error e => .error e
            | .ok st => phase2 pr rest "" st
          else phase2 pr rest (if endsW w "\n" then "" else w ++ " ") st
      else phase2 pr rest testLine st

/-- The `isTextLongerThanImage` continuation (lines 503–632): jump the
cursor to `imageBottom - 25`, draw the leftover phase-1 line at full
width (no retry, no page check), then run phase 2 and draw its final
line with retry. -/
def p2Block (pr : Prims) (imageBottom : ℚ) (line : String) (rem : List String)
    (st : St) : Except String St := do
  let st := { st with y := qsub imageBottom 25 }
  let st ←
    if trimStr line ≠ "" then
      match pr.draw line with
      | .error e => .error e
      | .ok _ => .ok (advance (push st (.text line .body 12 margin st.y)) 18)
    else .ok st
  match phase2 pr rem "" st with
  | .error e => .error e
  | .ok (st, line) =>
    if trimStr line ≠ "" then
      match drawRetry pr line with
      | .error e => .error e
      | .ok s' => .ok (advance (push st (.text s' .body 12 margin st.y)) 18)
    else .ok st

/-- After phase 1 (lines 490–636): draw the final phase-1 line (only when
the text did not outgrow the image), then either continue at full width
(`p2Block`) or set the cursor to `min textY imageBottom`. -/
def p1Tail (pr : Prims) (textX imageBottom : ℚ)
    (r : St × ℚ × String × List String × Bool) : Except String St :=
  let (st, ty, line, rem, longer) := r
  if longer then p2Block pr imageBottom line rem st
  else
    if trimStr line ≠ "" then
      match pr.draw line with
      | .error e => .error e
      | .ok _ =>
        let st := push st (.text line .body 12 textX ty)
        .ok { st with y := qmin (qsub ty 18) imageBottom }
    else .ok { st with y := qmin ty imageBottom }

/-! ## Section rendering and `generatePDF` (lines 12–670 of the source) -/

/-- One section of the content structure handed to `generatePDF`.
Missing / falsy string fields are `""`; a missing `imageBuffer` is
`none`. -/
structure Sec where
  heading : String := ""
  text : String := ""
  layout : String := ""
  imageCaption : String := ""
  imageBuffer : Option Buffer := none
  isFlowchart : Bool := false
deriving DecidableEq, Repr

/-- The content structure handed to `generatePDF`. -/
structure Content where
  title : String := ""
  sections : List Sec := []
deriving DecidableEq, Repr

/-- The full side-by-side text + diagram branch for a section with
non-empty body text (lines 374–637): force a page break when fewer than
250pt remain, place the diagram, then run the two-phase text flow.  When
the image could not be embedded (`addImage` returned null) nothing else
is rendered. -/
def sideBySideM (pr : Prims) (s : Sec) (st : St) : Except String St :=
  let st := if qlt (qsub st.y margin) 250 then newPage st else st
  let (st, res) := addImageM pr s.imageBuffer s.imageCaption false st
  match res with
  | none => .ok st
  | some info =>
    let textWidth := qsub (qsub contentWidth info.w) 30
    let textX := qadd (qadd info.x info.w) 30
    let imageBottom := info.bottom
    match phase1 pr textX textWidth imageBottom (splitStr s.text ' ') "" info.y st with
    | .error e => .error e
    | .ok r => p1Tail pr textX imageBottom r

/-- The text + flowchart branch (lines 349–371): body text first, then
the flowchart, or — when the buffer has length 0 — the italic placeholder
line. -/
def flowBranch (pr : Prims) (s : Sec) (st : St) : Except String St := do
  let st ←
    if s.text ≠ "" then do
      let st ← addTextM pr ⟨.body, 12, 0, contentWidth⟩ s.text st
      pure (advance st 20)
    else pure st
  match s.imageBuffer with
  | some b =>
    if b.length > 0 then
      pure (advance (addImageM pr (some b) s.imageCaption true st).1 15)
    else do
      let st ← addTextM pr ⟨.italic, 12, 0, contentWidth⟩
        "(Flowchart visualization unavailable)" st
      pure (advance st 20)
  | none => do
    let st ← addTextM pr ⟨.italic, 12, 0, contentWidth⟩
      "(Flowchart visualization unavailable)" st
    pure (advance st 20)

/-- The section heading (lines 342–345): bold 18pt followed by `y -= 10`
with no page check. -/
def headingM (pr : Prims) (s : Sec) (st : St) : Except String St :=
  if s.heading ≠ "" then do
    let st ← addTextM pr ⟨.bold, 18, 0, contentWidth⟩ s.heading st
    pure (advance st 10)
  else pure st

/-- One iteration of the section loop (lines 340–659), including the
trailing inter-section gap (45pt after a flowchart section, 35pt
otherwise) and its reactive page check. -/
def renderSec (pr : Prims) (st : St) (s : Sec) : Except String St := do
  let st ← headingM pr s st
  let st ←
    if s.layout == "text-with-image" && s.imageBuffer.isSome then
      if s.isFlowchart then flowBranch pr s st
      else
        if s.text ≠ "" then sideBySideM pr s st
        else pure (addImageM pr s.imageBuffer s.imageCaption false st).1
    else
      if s.text ≠ "" then addTextM pr ⟨.body, 12, 0, contentWidth⟩ s.text st
      else pure st
  pure (pagecheck (advance st (if s.isFlowchart then 45 else 35)))

/-- `generatePDF(content)` (lines 12–670): first page, optional title
(bold 24pt followed by `y -= 30`), then the section loop.  Serialization
(`pdfDoc.save()`) is external and not a source of the claims'
behaviour. -/
def generatePDFM (pr : Prims) (c : Content) : Except String St := do
  let st0 : St := ⟨1, [], topY⟩
  let st ←
    if c.title ≠ "" then do
      let st ← addTextM pr ⟨.bold, 24, 0, contentWidth⟩ c.title st0
      pure (advance st 30)
    else pure st0
  c.sections.foldlM (renderSec pr) st

/-! ## The document assembler `generateDocumentFromContent`
(lines 675–1104 of the source) -/

/-- One diagram generation result (`{ index, buffer }`; only the buffer
is read by the assembler). -/
structure DiagR where
  buffer : Option Buffer := none
deriving DecidableEq, Repr

/-- One flowchart generation result (`{ index, name, buffer }`); a
missing name is the falsy `""`. -/
structure FlowR where
  name : String := ""
  buffer : Option Buffer := none
deriving DecidableEq, Repr

/-- One section of the optional AI document structure. -/
structure PlanSec where
  heading : String := ""
  content : String := ""
  includeImage : Bool := false
  imageCaption : String := ""
deriving DecidableEq, Repr

/-- The optional AI document structure (`docStructure`). -/
structure Plan where
  title : String := ""
  sections : List PlanSec := []
deriving DecidableEq, Repr

/-- The effective AI output fields the assembler reads
(`fullOutput = noteData?.fullOutput || noteData || {}`; only `summary`
and `concepts_diagram` are consulted). -/
structure NoteData where
  summary : String := ""
  concepts_diagram : List String := []
deriving DecidableEq, Repr

/-- A key of the `usedVisuals` set: `(true, i)` is `"flow-i"`,
`(false, i)` is `"diagram-i"`. -/
abbrev VKey := Bool × ℕ

/-- `usedVisuals.has(k)`. -/
def keyMem (k : VKey) : List VKey → Bool
  | [] => false
  | a :: t => a == k || keyMem k t

/-- The shared-keyword list of matching strategy 5. -/
def kwList : List String :=
  ["process", "flow", "algorithm", "procedure", "workflow", "sequence", "steps"]

/-- The five name-matching strategies (lines 747–761), in order of
precision; `sn`/`sc` are the lowercased section heading and caption, `fn`
the lowercased flowchart name. -/
def stratHit (sn sc fn : String) : ℕ → Bool
  | 0 => sn == fn
  | 1 => strIncl sn fn && decide (3 < fn.length)
  | 2 => strIncl fn sn && decide (3 < sn.length)
  | 3 => strIncl sc fn && decide (3 < fn.length)
  | 4 => kwList.any fun kw => strIncl sn kw && strIncl fn kw
  | _ => false

/-- Scan the flowcharts in index order for the first unused one with a
buffer matched by the given strategy (lines 767–782). -/
def scanFlows (used : List VKey) (sn sc : String) (strat : ℕ) :
    ℕ → List FlowR → Option (ℕ × String × Buffer)
  | _, [] => none
  | i, f :: rest =>
    match f.buffer with
    | some b =>
      if !keyMem (true, i) used && stratHit sn sc (lowerStr f.name) strat then
        some (i, f.name, b)
      else scanFlows used sn sc strat (i + 1) rest
    | none => scanFlows used sn sc strat (i + 1) rest

/-- Try the five strategies in order (lines 764–783). -/
def findFlow (used : List VKey) (sn sc : String) (fs : List FlowR) :
    Option (ℕ × String × Buffer) :=
  match scanFlows used sn sc 0 0 fs with
  | some r => some r
  | none =>
    match scanFlows used sn sc 1 0 fs with
    | some r => some r
    | none =>
      match scanFlows used sn sc 2 0 fs with
      | some r => some r
      | none =>
        match scanFlows used sn sc 3 0 fs with
        | some r => some r
        | none => scanFlows used sn sc 4 0 fs

/-- Concept-name containment matching over the diagrams (lines 787–817);
returns the index, buffer and the (lowercased) concept name. -/
def scanDiagMatch (used : List VKey) (concepts : List String)
    (sn capRaw : String) : ℕ → List DiagR → Option (ℕ × Buffer × String)
  | _, [] => none
  | d, g :: rest =>
    match g.buffer with
    | some b =>
      if !keyMem (false, d) used then
        let cn := lowerStr ((concepts.get? d).getD "")
        if cn ≠ "" &&
            (strIncl sn cn || strIncl cn sn ||
             (capRaw ≠ "" && strIncl (lowerStr capRaw) cn)) then
          some (d, b, cn)
        else scanDiagMatch used concepts sn capRaw (d + 1) rest
      else scanDiagMatch used concepts sn capRaw (d + 1) rest
    | none => scanDiagMatch used concepts sn capRaw (d + 1) rest

/-- First unused flowchart with a buffer, any name (lines 822–834). -/
def scanAnyFlow (used : List VKey) : ℕ → List FlowR → Option (ℕ × String × Buffer)
  | _, [] => none
  | i, f :: rest =>
    match f.buffer with
    | some b =>
      if !keyMem (true, i) used then some (i, f.name, b)
      else scanAnyFlow used (i + 1) rest
    | none => scanAnyFlow used (i + 1) rest

/-- First unused diagram with a buffer (lines 837–856); returns the
concept-name fallback `concepts[i] || 'Diagram i+1'` (not lowercased). -/
def scanAnyDiag (used : List VKey) (concepts : List String) :
    ℕ → List DiagR → Option (ℕ × Buffer × String)
  | _, [] => none
  | i, g :: rest =>
    match g.buffer with
    | some b =>
      if !keyMem (false, i) used then
        let c0 := (concepts.get? i).getD ""
        some (i, b, if c0 ≠ "" then c0 else "Diagram " ++ toString (i + 1))
      else scanAnyDiag used concepts (i + 1) rest
    | none => scanAnyDiag used concepts (i + 1) rest

/-- The complete visual-assignment cascade for one plan section flagged
`includeImage` (lines 740–857): matched flowchart, then matched diagram,
then any unused flowchart, then any unused diagram.  Returns the
`usedVisuals` key, the buffer, the effective caption, and whether the
visual is a flowchart. -/
def pickVis (fs : List FlowR) (ds : List DiagR) (concepts : List String)
    (ps : PlanSec) (used : List VKey) : Option (VKey × Buffer × String × Bool) :=
  let sn := lowerStr ps.heading
  let sc := lowerStr ps.imageCaption
  match findFlow used sn sc fs with
  | some (i, nm, b) =>
    some ((true, i), b, (if ps.imageCaption ≠ "" then ps.imageCaption else nm), true)
  | none =>
    match scanDiagMatch used concepts sn ps.imageCaption 0 ds with
    | some (d, b, cn) =>
      some ((false, d), b, (if ps.imageCaption ≠ "" then ps.imageCaption else cn), false)
    | none =>
      match scanAnyFlow used 0 fs with
      | some (i, nm, b) =>
        some ((true, i), b,
          (if ps.imageCaption ≠ "" then ps.imageCaption
           else if nm ≠ "" then nm else "Flowchart"), true)
      | none =>
        match scanAnyDiag used concepts 0 ds with
        | some (i, b, cn) =>
          some ((false, i), b,
            (if ps.imageCaption ≠ "" then ps.imageCaption else cn), false)
        | none => none

/-- The plan-section loop (lines 715–866): each section becomes a `Sec`;
a section flagged `includeImage` receives at most one visual through
`pickVis`, whose key is added to `usedVisuals`. -/
def procPlan (fs : List FlowR) (ds : List DiagR) (concepts : List String) :
    List PlanSec → List VKey → List Sec × List VKey
  | [], used => ([], used)
  | ps :: rest, used =>
    let base : Sec :=
      { heading := ps.heading, text := ps.content,
        layout := if ps.includeImage then "text-with-image" else "text-only",
        imageCaption := ps.imageCaption, imageBuffer := none, isFlowchart := false }
    if ps.includeImage then
      match pickVis fs ds concepts ps used with
      | some (k, b, cap, isFl) =>
        let s := { base with imageBuffer := some b, imageCaption := cap, isFlowchart := isFl }
        let (ss, u) := procPlan fs ds concepts rest (k :: used)
        (s :: ss, u)
      | none =>
        let (ss, u) := procPlan fs ds concepts rest used
        (base :: ss, u)
    else
      let (ss, u) := procPlan fs ds concepts rest used
      (base :: ss, u)

/-- Append every still-unused flowchart that has a buffer as a brand-new
trailing section (lines 868–890); `i` is the flowchart index, `cnt` the
running `unassignedCount`. -/
def appendUnusedGo : List FlowR → ℕ → ℕ → List VKey → List Sec × List VKey
  | [], _, _, used => ([], used)
  | f :: rest, i, cnt, used =>
    match f.buffer with
    | some b =>
      if keyMem (true, i) used then appendUnusedGo rest (i + 1) cnt used
      else
        let s : Sec :=
          { heading := (if f.name ≠ "" then f.name else "Process Workflow") ++ " " ++
              toString (cnt + 1),
            text := "This flowchart illustrates " ++
              (if f.name ≠ "" then f.name else "a process workflow") ++ ".",
            layout := "text-with-image",
            imageCaption := if f.name ≠ "" then f.name else "Flowchart " ++ toString (i + 1),
            imageBuffer := some b, isFlowchart := true }
        let (ss, u) := appendUnusedGo rest (i + 1) (cnt + 1) ((true, i) :: used)
        (s :: ss, u)
    | none => appendUnusedGo rest (i + 1) cnt used

/-- All sections of the plan path together with the final `usedVisuals`
set: the plan loop starting from an empty used set, then the trailing
unused flowcharts. -/
def planSections (fs : List FlowR) (ds : List DiagR) (concepts : List String)
    (pss : List PlanSec) : List Sec × List VKey :=
  let (ss, used) := procPlan fs ds concepts pss []
  let (extra, u2) := appendUnusedGo fs 0 0 used
  (ss ++ extra, u2)

/-- The diagram sections of the positional fallback (lines 912–928). -/
def diagFallback (concepts : List String) : ℕ → List DiagR → List Sec
  | _, [] => []
  | i, g :: rest =>
    match g.buffer with
    | some b =>
      let c0 := (concepts.get? i).getD ""
      let cn := if c0 ≠ "" then c0 else "Concept " ++ toString (i + 1)
      { heading := cn, imageBuffer := some b, imageCaption := cn,
        layout := "text-with-image", isFlowchart := false } :: diagFallback concepts (i + 1) rest
    | none => diagFallback concepts (i + 1) rest

/-- The flowchart sections of the positional fallback (lines 931–944). -/
def flowFallback : List FlowR → List Sec
  | [] => []
  | f :: rest =>
    match f.buffer with
    | some b =>
      { heading := f.name, imageBuffer := some b, imageCaption := f.name,
        layout := "text-with-image", isFlowchart := true } :: flowFallback rest
    | none => flowFallback rest

/-- The positional fallback content (lines 897–944): summary section
first, then one section per buffered diagram, then one per buffered
flowchart. -/
def fallbackContent (nd : NoteData) (ds : List DiagR) (fs : List FlowR) : Content :=
  { title := "NoteFlow: AI-Generated Notes",
    sections :=
      { heading := "Summary",
        text := if nd.summary ≠ "" then nd.summary else "No summary available" } ::
      (diagFallback nd.concepts_diagram 0 ds ++ flowFallback fs) }

/-- The content built by the assembler (lines 703–944): the plan path
when a structure with a truthy title is available, the positional
fallback otherwise. -/
def buildContent (nd : NoteData) (ds : List DiagR) (fs : List FlowR)
    (plan : Option Plan) : Content :=
  match plan with
  | some p =>
    if p.title ≠ "" then ⟨p.title, (planSections fs ds nd.concepts_diagram p.sections).1⟩
    else fallbackContent nd ds fs
  | none => fallbackContent nd ds fs

/-- Number of sections carrying an image buffer. -/
def placedCount (l : List Sec) : ℕ :=
  l.countP fun s => s.imageBuffer.isSome

/-- Image-only diagram sections of the recovery path (lines 1008–1021). -/
def simpDiag : ℕ → List DiagR → List Sec
  | _, [] => []
  | i, g :: rest =>
    match g.buffer with
    | some b =>
      { heading := "Diagram " ++ toString (i + 1), text := "",
        imageBuffer := some b, layout := "text-with-image",
        imageCaption := "Diagram " ++ toString (i + 1), isFlowchart := false } ::
        simpDiag (i + 1) rest
    | none => simpDiag (i + 1) rest

/-- Image-only flowchart sections of the recovery path (lines 1023–1036). -/
def simpFlow : ℕ → List FlowR → List Sec
  | _, [] => []
  | i, f :: rest =>
    match f.buffer with
    | some b =>
      { heading := "Flowchart " ++ toString (i + 1), text := "",
        imageBuffer := some b, layout := "text-with-image",
        imageCaption := if f.name ≠ "" then f.name else "Flowchart " ++ toString (i + 1),
        isFlowchart := true } :: simpFlow (i + 1) rest
    | none => simpFlow (i + 1) rest

/-- The simplified content used by the encoding-issue recovery path
(lines 981–1037). -/
def simplifiedContent (nd : NoteData) (ds : List DiagR) (fs : List FlowR) : Content :=
  let base : List Sec :=
    [{ heading := "Note Summary",
       text := "The original note content contained characters that couldn\x27t be properly encoded. This is a simplified version.",
       layout := "text-only" }]
  let withSummary :=
    if nd.summary ≠ "" then
      base ++ [{ heading := "Content Summary",
                 text := spaceNP (String.mk (collapseNL nd.summary.toList)),
                 layout := "text-only" }]
    else base
  { title := "PDF Document (Simplified Version)",
    sections := withSummary ++ simpDiag 0 ds ++ simpFlow 0 fs }

/-- The error-PDF content (lines 1046–1068). -/
def errorContent (nd : NoteData) (e : String) : Content :=
  let safeErr := if e ≠ "" then spaceBad e else "Unknown error"
  let summaryText := if nd.summary ≠ "" then nd.summary else "No summary available"
  { title := "Error Generating PDF",
    sections :=
      [{ heading := "Error Information",
         text := "An error occurred while generating this PDF: " ++ safeErr },
       { heading := "Content Summary", text := spaceBad summaryText }] }

/-- The last-resort minimal document (lines 1074–1097): one default page,
two direct `drawText` calls with the basic font and no retry; a throw
here leads to re-throwing the original error.  (The source's default
`addPage()` page size is immaterial to the claims; the two fixed draw
offsets `height - 100` / `height - 150` are kept.) -/
def lastResort (pr : Prims) (e : String) : Except String St :=
  match pr.draw "Error Generating PDF" with
  | .error e2 => .error e2
  | .ok _ =>
    match pr.draw ("Error: " ++ e) with
    | .error e2 => .error e2
    | .ok _ =>
      .ok { pages := 1,
            cmds := [(0, .text "Error Generating PDF" .body 24 50 (qsub pageHeight 100)),
                     (0, .text ("Error: " ++ e) .body 12 50 (qsub pageHeight 150))],
            y := qsub pageHeight 150 }

/-- The error-PDF fallback chain of the main `catch` (lines 1046–1102):
error PDF, then last resort, then re-throw the *original* error. -/
def errorChain (pr : Prims) (nd : NoteData) (e : String) : Except String St :=
  match generatePDFM pr (errorContent nd e) with
  | .ok st => .ok st
  | .error _ =>
    match lastResort pr e with
    | .ok st => .ok st
    | .error _ => .error e

/-- `generateDocumentFromContent(noteData, diagrams, flowcharts,
docStructure)` (lines 675–1104): assemble the content and render it; on
failure, optionally try the simplified-content recovery (only for the
two recognized encoding-fault messages), then the error PDF, then the
last-resort document, and only then re-throw the original error. -/
def gdfcM (pr : Prims) (nd : NoteData) (ds : List DiagR) (fs : List FlowR)
    (plan : Option Plan) : Except String St :=
  match generatePDFM pr (buildContent nd ds fs plan) with
  | .ok st => .ok st
  | .error e =>
    if strIncl e "WinAnsi cannot encode" || strIncl e "0x000a" then
      match generatePDFM pr (simplifiedContent nd ds fs) with
      | .ok st => .ok st
      | .error _ => errorChain pr nd e
    else errorChain pr nd e

/-! ## Shared concrete instances for witnesses and counterexamples -/

/-- Primitives that always succeed: zero measured width, successful
draws, every buffer decoding to a 100 × 100 image. -/
def okPr : Prims :=
  { width := fun _ _ => .ok 0, draw := fun _ => .ok (), decode := fun _ => some (100, 100) }

/-- Primitives whose decoder always fails (corrupted buffers). -/
def badDecPr : Prims :=
  { width := fun _ _ => .ok 0, draw := fun _ => .ok (), decode := fun _ => none }

/-- The initial canvas state of `generatePDF`. -/
def st0 : St := ⟨1, [], topY⟩

/-- The successful result of a render, if any (used to state concrete
evaluations decidably). -/
def exOk (r : Except String St) : Option St :=
  match r with
  | .ok st => some st
  | .error _ => none

/-! ## C4 — visual sizing bounds -/

/-- A 100 × 100 diagram is rendered at 256pt wide — larger than its
natural size, refuting the "never scaled up" part of the claim for
diagrams: `addImage` gives every diagram the 0.5 × contentWidth target
width regardless of its natural size. -/
theorem C4_counterexample :
    (addImageM okPr (some [0]) "" false st0).1.cmds = [(0, .image 50 486 256 256)] ∧
      ¬ ((256 : ℚ) ≤ 100) := by
  constructor
  · decide
  · norm_num

/-- Numeral forms of the `mkRat` constants used by the model. -/
theorem mk12_eq : (mkRat 1 2 : ℚ) = 1 / 2 := by rw [Rat.mkRat_eq_div]; norm_num

theorem mk25_eq : (mkRat 2 5 : ℚ) = 2 / 5 := by rw [Rat.mkRat_eq_div]; norm_num

theorem mk35_eq : (mkRat 3 5 : ℚ) = 3 / 5 := by rw [Rat.mkRat_eq_div]; norm_num

theorem mk45_eq : (mkRat 4 5 : ℚ) = 4 / 5 := by rw [Rat.mkRat_eq_div]; norm_num

theorem mk65_eq : (mkRat 6 5 : ℚ) = 6 / 5 := by rw [Rat.mkRat_eq_div]; norm_num

/-- C4 (amended): flowchart renders fit the 0.8 × contentWidth by
0.5 × pageHeight box and are never scaled above natural size; diagram
renders fit the 0.5 × contentWidth by 0.4 × pageHeight box, but a diagram
may be scaled *up* to the 0.5 × contentWidth target width. -/
theorem C4_amended (w h : ℚ) (hw : 0 < w) (hh : 0 < h) :
    ((flowDims w h).1 ≤ 0.8 * contentWidth ∧ (flowDims w h).2 ≤ 0.5 * pageHeight ∧
      (flowDims w h).1 ≤ w ∧ (flowDims w h).2 ≤ h) ∧
    ((diagDims w h).1 ≤ 0.5 * contentWidth ∧ (diagDims w h).2 ≤ 0.4 * pageHeight) := by
  have hw' : w ≠ 0 := ne_of_gt hw
  have hh' : h ≠ 0 := ne_of_gt hh
  constructor
  · rw [flowDims]
    simp only [qmul_eq, qdiv_eq, qmin_eq, mk45_eq, mk12_eq, contentWidth, pageHeight]
    split_ifs with hs
    · rw [qlt_iff] at hs
      dsimp only
      set sc := min (512 * (4 / 5) / w) (792 * (1 / 2) / h) with hsc
      have hA : sc ≤ 512 * (4 / 5) / w := min_le_left _ _
      have hB : sc ≤ 792 * (1 / 2) / h := min_le_right _ _
      refine ⟨?_, ?_, ?_, ?_⟩
      · calc w * sc ≤ w * (512 * (4 / 5) / w) := mul_le_mul_of_nonneg_left hA (le_of_lt hw)
          _ = 512 * (4 / 5) := by field_simp; ring
          _ ≤ 0.8 * 512 := by norm_num
      · calc h * sc ≤ h * (792 * (1 / 2) / h) := mul_le_mul_of_nonneg_left hB (le_of_lt hh)
          _ = 792 * (1 / 2) := by field_simp; ring
          _ ≤ 0.5 * 792 := by norm_num
      · calc w * sc ≤ w * 1 := mul_le_mul_of_nonneg_left (le_of_lt hs) (le_of_lt hw)
          _ = w := mul_one w
      · calc h * sc ≤ h * 1 := mul_le_mul_of_nonneg_left (le_of_lt hs) (le_of_lt hh)
          _ = h := mul_one h
    · rw [Bool.not_eq_true, qlt_eq_false_iff] at hs
      dsimp only
      have h1 : (1 : ℚ) ≤ 512 * (4 / 5) / w := le_trans hs (min_le_left _ _)
      have h2 : (1 : ℚ) ≤ 792 * (1 / 2) / h := le_trans hs (min_le_right _ _)
      rw [le_div_iff₀ hw, one_mul] at h1
      rw [le_div_iff₀ hh, one_mul] at h2
      have e1 : (512 : ℚ) * (4 / 5) = 0.8 * 512 := by norm_num
      have e2 : (792 : ℚ) * (1 / 2) = 0.5 * 792 := by norm_num
      exact ⟨by linarith, by linarith, le_refl w, le_refl h⟩
  · rw [diagDims]
    simp only [qmul_eq, qdiv_eq, mk12_eq, mk25_eq, contentWidth, pageHeight]
    split_ifs with hs
    · rw [qlt_iff] at hs
      dsimp only
      rw [div_mul_eq_mul_div, lt_div_iff₀ hw] at hs
      constructor
      · rw [div_mul_eq_mul_div, div_le_iff₀ hh]
        linarith [hs]
      · norm_num
    · rw [Bool.not_eq_true, qlt_eq_false_iff] at hs
      dsimp only
      refine ⟨by norm_num, ?_⟩
      calc h / w * (512 * (1 / 2)) ≤ 792 * (2 / 5) := hs
        _ ≤ 0.4 * 792 := by norm_num

/-- Witness instantiating `C4_amended` at the concrete natural size
1600 × 900. -/
theorem C4_amended_witness :
    ((flowDims 1600 900).1 ≤ 0.8 * contentWidth ∧ (flowDims 1600 900).2 ≤ 0.5 * pageHeight ∧
      (flowDims 1600 900).1 ≤ 1600 ∧ (flowDims 1600 900).2 ≤ 900) ∧
    ((diagDims 1600 900).1 ≤ 0.5 * contentWidth ∧ (diagDims 1600 900).2 ≤ 0.4 * pageHeight) :=
  C4_amended 1600 900 (by norm_num) (by norm_num)

/-! ## C6 — the no-text diagram path -/

/-- The section of claim C6: a text-with-image diagram section with empty
body text. -/
def secNoText : Sec := { layout := "text-with-image", imageBuffer := some [0] }

/-- C6: rendering a no-text diagram section places the image at
`x = margin = 50` (left-aligned) with width `256 = 0.5 × contentWidth`.
The call site passes `contentWidth * 0.7` and its comment says "add the
image centered", but `addImage` ignores its `width` argument and
left-aligns every non-flowchart image, so the image is neither centered
nor 70% of the content width. -/
theorem C6_eval :
    exOk (renderSec okPr st0 secNoText) = some ⟨1, [(0, Cmd.image 50 486 256 256)], 426⟩ ∧
      (50 : ℚ) ≠ margin + (contentWidth - contentWidth * 0.7) / 2 ∧
      (256 : ℚ) ≠ contentWidth * 0.7 := by
  refine ⟨by decide, ?_, ?_⟩
  · norm_num [margin, contentWidth]
  · norm_num [contentWidth]

/-! ## C8 — greedy word wrapping -/

/-- The text strings drawn between two states (`st'` extending `st`). -/
def addedTexts (st st' : St) : List String :=
  (st'.cmds.drop st.cmds.length).filterMap fun pc =>
    match pc.2 with
    | .text s _ _ _ _ => some s
    | .image _ _ _ _ => none

theorem addedTexts_self (st : St) : addedTexts st st = [] := by
  rw [addedTexts, List.drop_length]
  rfl

theorem cmds_advance (st : St) (d : ℚ) : (advance st d).cmds = st.cmds := rfl

theorem cmds_pagecheck (st : St) : (pagecheck st).cmds = st.cmds := by
  rw [pagecheck]
  split <;> rfl

/-- Greedy wrapping as the spec words it: accumulate the next word while
the measured width of the line extended by it stays within `maxWidth`,
otherwise emit the line and start a new one from that word; blank words
are skipped; the final line is kept only if non-blank.  (A line carries
its trailing space, exactly as in the code.) -/
def specGreedyWrap (meas : String → ℚ) (maxW : ℚ) : List String → String → List String
  | [], line => if trimStr line = "" then [] else [line]
  | w :: rest, line =>
    if trimStr w = "" then specGreedyWrap meas maxW rest line
    else if meas (line ++ w ++ " ") ≤ maxW then specGreedyWrap meas maxW rest (line ++ w ++ " ")
    else line :: specGreedyWrap meas maxW rest (w ++ " ")

theorem procWords_ext (pr : Prims) (c : TCtx) :
    ∀ words line st, ∃ d, (procWords pr c words line st).1.cmds = st.cmds ++ d := by
  intro words
  induction words with
  | nil => intro line st; exact ⟨[], by simp [procWords]⟩
  | cons w rest ih =>
    intro line st
    rw [procWords]
    by_cases hb : trimStr w = ""
    · rw [if_pos hb]; exact ih line st
    · rw [if_neg hb]
      dsimp only
      split
      · cases hdr : drawRetry pr line with
        | error e => exact ih line st
        | ok s' =>
          dsimp only
          obtain ⟨d, hd⟩ := ih (w ++ " ") (pagecheck (advance (push st (.text s' c.font c.size (qadd margin c.indent) st.y)) (lineAdvance c.size)))
          refine ⟨(st.pages - 1, .text s' c.font c.size (qadd margin c.indent) st.y) :: d, ?_⟩
          rw [hd, cmds_pagecheck, cmds_advance, push]
          simp
      · exact ih (line ++ w ++ " ") st

theorem addedTexts_split (st st' st'' : St) (d1 d2 : List (ℕ × Cmd))
    (h1 : st'.cmds = st.cmds ++ d1) (h2 : st''.cmds = st'.cmds ++ d2) :
    addedTexts st st'' = addedTexts st st' ++ addedTexts st' st'' := by
  rw [addedTexts, addedTexts, addedTexts, h2, h1, List.append_assoc, List.drop_left]
  rw [show st.cmds ++ (d1 ++ d2) = (st.cmds ++ d1) ++ d2 from by rw [List.append_assoc]]
  rw [List.drop_left, List.drop_left, List.filterMap_append]

theorem addedTexts_push (st : St) (s : String) (f : Font) (sz x yy : ℚ) :
    addedTexts st (push st (.text s f sz x yy)) = [s] := by
  rw [addedTexts, push]
  dsimp only
  rw [List.drop_left]
  rfl

theorem drawRetry_ok (pr : Prims) (s : String) (h : pr.draw s = .ok ()) :
    drawRetry pr s = .ok s := by
  rw [drawRetry, h]

theorem procWords_greedy (pr : Prims) (c : TCtx) (hdraw : ∀ s, pr.draw s = .ok ()) :
    ∀ words line st,
      specGreedyWrap (fun t => widthEff pr (cleanRN t) c.size) c.maxWidth words line =
        addedTexts st (procWords pr c words line st).1 ++
          (if trimStr (procWords pr c words line st).2 = "" then []
           else [(procWords pr c words line st).2]) := by
  intro words
  induction words with
  | nil =>
    intro line st
    rw [procWords, specGreedyWrap]
    dsimp only
    rw [addedTexts_self, List.nil_append]
  | cons w rest ih =>
    intro line st
    rw [procWords, specGreedyWrap]
    by_cases hb : trimStr w = ""
    · rw [if_pos hb, if_pos hb]
      exact ih line st
    · rw [if_neg hb, if_neg hb]
      dsimp only
      cases hq : qlt c.maxWidth (widthEff pr (cleanRN (line ++ w ++ " ")) c.size) with
      | false =>
        have hle : widthEff pr (cleanRN (line ++ w ++ " ")) c.size ≤ c.maxWidth :=
          (qlt_eq_false_iff _ _).mp hq
        rw [if_pos hle]
        simp only [hq, Bool.false_eq_true, if_false]
        exact ih (line ++ w ++ " ") st
      | true =>
        have hgt : ¬ widthEff pr (cleanRN (line ++ w ++ " ")) c.size ≤ c.maxWidth :=
          not_le.mpr ((qlt_iff _ _).mp hq)
        rw [if_neg hgt]
        simp only [hq, if_true]
        rw [drawRetry_ok pr line (hdraw line)]
        dsimp only
        set st2 := pagecheck (advance (push st (.text line c.font c.size (qadd margin c.indent) st.y)) (lineAdvance c.size)) with hst2
        obtain ⟨d, hd⟩ := procWords_ext pr c rest (w ++ " ") st2
        have h1 : st2.cmds = st.cmds ++ [(st.pages - 1, .text line c.font c.size (qadd margin c.indent) st.y)] := by
          rw [hst2, cmds_pagecheck, cmds_advance, push]
        have hsplit := addedTexts_split st st2 (procWords pr c rest (w ++ " ") st2).1 _ d h1 hd
        rw [hsplit]
        have h2 : addedTexts st st2 = [line] := by
          rw [addedTexts, h1, List.drop_left]
          rfl
        rw [h2]
        rw [ih (w ++ " ") st2]
        rfl

/-- An empty paragraph advances the cursor by `size * 0.5 = 6` points at
size 12 — which is half the *font size*, not half the line height
(`lineAdvance 12 / 2 = 7.2`), refuting the "half a line height" part of
the claim. -/
theorem C8_counterexample :
    exOk (procPara okPr ⟨.body, 12, 0, contentWidth⟩ "" st0) = some ⟨1, [], 736⟩ ∧
      (742 : ℚ) - 736 ≠ lineAdvance 12 / 2 := by
  refine ⟨by decide, ?_⟩
  rw [lineAdvance_eq]
  norm_num

/-- C8 (amended): wrapping is greedy exactly as claimed (the emitted
lines of a non-blank paragraph are the greedy wrap under the effective
measure, candidate lines carrying their trailing space); a measurement
throw falls back to the `size * 0.6` per-character estimate; an empty
paragraph advances the cursor downward by half the *font size*
(`size * 0.5`), not half a line height. -/
theorem C8_amended :
    (∀ pr c par st, (∀ s, pr.draw s = .ok ()) → trimStr par ≠ "" →
      ∃ st', procPara pr c par st = .ok st' ∧
        addedTexts st st' =
          specGreedyWrap (fun t => widthEff pr (cleanRN t) c.size) c.maxWidth
            (splitStr par ' ') "") ∧
    (∀ pr s q e, pr.width s q = .error e →
      widthEff pr s q = (s.length : ℚ) * (q * 0.6)) ∧
    (∀ pr c par st, trimStr par = "" →
      procPara pr c par st = .ok { st with y := st.y - c.size * 0.5 }) := by
  refine ⟨?_, ?_, ?_⟩
  · intro pr c par st hdraw hpar
    rw [procPara, if_neg hpar]
    have hg := procWords_greedy pr c hdraw (splitStr par ' ') "" st
    cases hP : procWords pr c (splitStr par ' ') "" st with
    | mk st1 line =>
      rw [hP] at hg
      dsimp only at hg ⊢
      by_cases hl : trimStr line = ""
      · rw [if_pos hl]
        rw [if_pos hl] at hg
        exact ⟨st1, rfl, by rw [hg, List.append_nil]⟩
      · rw [if_neg hl]
        rw [if_neg hl] at hg
        rw [drawRetry_ok pr line (hdraw line)]
        dsimp only
        refine ⟨_, rfl, ?_⟩
        obtain ⟨d, hd⟩ := procWords_ext pr c (splitStr par ' ') "" st
        rw [hP] at hd
        have h1 : (advance (push st1 (.text line c.font c.size (qadd margin c.indent) st1.y)) (lineAdvance c.size)).cmds = st1.cmds ++ [(st1.pages - 1, .text line c.font c.size (qadd margin c.indent) st1.y)] := by
          rw [cmds_advance, push]
        rw [addedTexts_split st st1 _ d _ hd h1, hg]
        congr 1
        rw [addedTexts, h1, List.drop_left]
        rfl
  · intro pr s q e h
    rw [widthEff, h]
    rw [qmul_eq, qmul_eq, qNat_eq, mk35_eq]
    norm_num
  · intro pr c par st h
    rw [procPara, if_pos h, advance, qsub_eq, qmul_eq, mk12_eq]
    norm_num

/-- Witness instantiating the greedy-wrap part of `C8_amended` on a
concrete paragraph. -/
theorem C8_amended_witness :
    ∃ st', procPara okPr ⟨.body, 12, 0, contentWidth⟩ "hello world" st0 = .ok st' ∧
      addedTexts st0 st' =
        specGreedyWrap (fun t => widthEff okPr (cleanRN t) 12) contentWidth
          (splitStr "hello world" ' ') "" :=
  C8_amended.1 okPr ⟨.body, 12, 0, contentWidth⟩ "hello world" st0 (fun _ => rfl) (by decide)

/-! ## C9 — drawText failure, sanitize-retry, propagation -/

/-- Primitives that fail to draw exactly the line `"aa bb "` (whose
stripped form is itself), succeed on everything else, and measure 10pt
per character. -/
def swallowPr : Prims :=
  { width := fun s _ => .ok (qmul (qNat s.length) 10),
    draw := fun s => if s = "aa bb " then .error "boom" else .ok (),
    decode := fun _ => none }

/-- Inside the word loop, a wrapped line whose draw fails twice (raw and
sanitized) does *not* propagate: the exception is caught by the word
loop's catch, the current word (`cc`) is skipped, and `addText` still
returns successfully — refuting the claim that a failing sanitized retry
always propagates to the caller. -/
theorem C9_counterexample :
    swallowPr.draw "aa bb " = .error "boom" ∧
      stripNP "aa bb " = "aa bb " ∧
      drawRetry swallowPr "aa bb " = .error "boom" ∧
      exOk (addTextM swallowPr ⟨.body, 12, 0, 80⟩ "aa bb cc d" st0) =
        some ⟨1, [(0, .text "aa bb d " .body 12 50 742)], mkRat 3608 5⟩ := by
  decide

/-- C9 (amended): a failed line draw is retried exactly once with all
non-printable/non-ASCII characters stripped; the failure of the
sanitized retry propagates out of `addText` only when it happens on the
*final* line of a paragraph — every error `addText` returns is the error
of some line's failed sanitized retry (mid-loop failures are caught by
the word loop, which skips the current word and continues). -/
theorem C9_amended :
    (∀ pr s, (pr.draw s = .ok () → drawRetry pr s = .ok s) ∧
      (∀ e, pr.draw s = .error e → pr.draw (stripNP s) = .ok () →
        drawRetry pr s = .ok (stripNP s)) ∧
      (∀ e e2, pr.draw s = .error e → pr.draw (stripNP s) = .error e2 →
        drawRetry pr s = .error e2)) ∧
    (∀ pr c text st e, addTextM pr c text st = .error e →
      ∃ l, drawRetry pr l = .error e) := by
  constructor
  · intro pr s
    refine ⟨?_, ?_, ?_⟩
    · intro h
      rw [drawRetry, h]
    · intro e h h2
      rw [drawRetry, h, h2]
    · intro e e2 h h2
      rw [drawRetry, h, h2]
  · have hpara : ∀ pr c par st e, procPara pr c par st = .error e →
        ∃ l, drawRetry pr l = .error e := by
      intro pr c par st e h
      rw [procPara] at h
      by_cases hp : trimStr par = ""
      · rw [if_pos hp] at h
        exact Except.noConfusion h
      · rw [if_neg hp] at h
        dsimp only at h
        cases hP : procWords pr c (splitStr par ' ') "" st with
        | mk st1 line =>
          rw [hP] at h
          dsimp only at h
          by_cases hl : trimStr line = ""
          · rw [if_pos hl] at h
            exact Except.noConfusion h
          · rw [if_neg hl] at h
            cases hdr : drawRetry pr line with
            | error e' =>
              rw [hdr] at h
              cases h
              exact ⟨line, hdr⟩
            | ok s' =>
              rw [hdr] at h
              exact Except.noConfusion h
    have hparas : ∀ pr c paras st e, procParas pr c paras st = .error e →
        ∃ l, drawRetry pr l = .error e := by
      intro pr c paras
      induction paras with
      | nil =>
        intro st e h
        rw [procParas] at h
        exact Except.noConfusion h
      | cons p tail ih =>
        intro st e h
        cases tail with
        | nil =>
          rw [procParas] at h
          exact hpara pr c p st e h
        | cons q rest =>
          rw [procParas] at h
          cases hp : procPara pr c p st with
          | error e' =>
            rw [hp] at h
            cases h
            exact hpara pr c p st e hp
          | ok st' =>
            rw [hp] at h
            exact ih _ _ h
    intro pr c text st e h
    rw [addTextM] at h
    by_cases ht : text = ""
    · rw [if_pos ht] at h
      exact Except.noConfusion h
    · rw [if_neg ht] at h
      dsimp only at h
      cases hp : procParas pr c (splitStr (spaceNonAscii (String.mk (spaceBeforeNL text.toList))) '\n') st with
      | error e' =>
        rw [hp] at h
        cases h
        exact hparas _ _ _ _ _ hp
      | ok st' =>
        rw [hp] at h
        exact Except.noConfusion h

/-- Witness instantiating `C9_amended`: a draw failure on the final line
of a paragraph propagates with the sanitized retry's error. -/
theorem C9_amended_witness :
    ∃ l, drawRetry swallowPr l = .error "boom" :=
  (C9_amended.2 swallowPr ⟨.body, 12, 0, 80⟩ "aa bb" st0 "boom" (by decide))

/-! ## C10 — undecodable buffer in the side-by-side path -/

/-- C10: in a text+diagram side-by-side section with non-empty body text
whose buffer fails to decode (both PNG and JPEG), nothing at all is
rendered after the heading — no body text, no placeholder, no image: the
rendered command list is exactly the heading's. -/
theorem C10_heading_only (pr : Prims) (s : Sec) (st : St)
    (hL : s.layout = "text-with-image") (hF : s.isFlowchart = false)
    (hT : s.text ≠ "") (b : Buffer) (hb : s.imageBuffer = some b)
    (hdec : pr.decode b = none) :
    ∀ st', renderSec pr st s = .ok st' →
      ∃ stH, headingM pr s st = .ok stH ∧ st'.cmds = stH.cmds := by
  intro st' h
  rw [renderSec] at h
  cases hH : headingM pr s st with
  | error e =>
    rw [hH] at h
    exact Except.noConfusion h
  | ok stH =>
    rw [hH] at h
    refine ⟨stH, rfl, ?_⟩
    rw [hL, hb, hF] at h
    simp only [Bind.bind, Except.bind, beq_self_eq_true, Option.isSome_some, Bool.and_self,
      if_true, Bool.false_eq_true, if_false, hT, ite_true, ite_false, if_pos hT] at h
    rw [sideBySideM, hb, addImageM, hdec] at h
    dsimp only at h
    cases h
    rw [cmds_pagecheck, cmds_advance]
    split <;> rfl

/-- The concrete section of the C10 witness. -/
def secC10 : Sec := ⟨"H", "hi", "text-with-image", "", some [9], false⟩

/-- Witness instantiating `C10_heading_only` on a concrete run. -/
theorem C10_heading_only_witness :
    ∃ stH, headingM badDecPr secC10 st0 = .ok stH ∧
      (⟨1, [(0, Cmd.text "H " .bold 18 50 742)], mkRat 3332 5⟩ : St).cmds = stH.cmds :=
  C10_heading_only badDecPr secC10 st0 rfl rfl (by decide) [9] rfl rfl
    ⟨1, [(0, Cmd.text "H " .bold 18 50 742)], mkRat 3332 5⟩ (by decide)

/-! ## C3 — the missing-visual placeholder -/

/-- Number of image draw commands. -/
def imageCount (l : List (ℕ × Cmd)) : ℕ :=
  l.countP fun pc =>
    match pc.2 with
    | .image _ _ _ _ => true
    | .text _ _ _ _ _ => false

/-- Number of italic 12pt text commands — in a section render these can
only come from the placeholder line (captions are italic 10pt). -/
def italic12Count (l : List (ℕ × Cmd)) : ℕ :=
  l.countP fun pc =>
    match pc.2 with
    | .text _ .italic sz _ _ => sz == 12
    | _ => false

/-- Every command `addText`'s word loop appends is a text command in the
call's font and size. -/
theorem procWords_shape (pr : Prims) (c : TCtx) :
    ∀ words line st, ∃ d, (procWords pr c words line st).1.cmds = st.cmds ++ d ∧
      ∀ pc ∈ d, ∃ pg t x yy, pc = (pg, Cmd.text t c.font c.size x yy) := by
  intro words
  induction words with
  | nil =>
    intro line st
    exact ⟨[], by simp [procWords], by intro pc h; cases h⟩
  | cons w rest ih =>
    intro line st
    rw [procWords]
    by_cases hb : trimStr w = ""
    · rw [if_pos hb]; exact ih line st
    · rw [if_neg hb]
      dsimp only
      split
      · cases hdr : drawRetry pr line with
        | error e => exact ih line st
        | ok s' =>
          dsimp only
          obtain ⟨d, hd, hall⟩ := ih (w ++ " ")
            (pagecheck (advance (push st (.text s' c.font c.size (qadd margin c.indent) st.y)) (lineAdvance c.size)))
          refine ⟨(st.pages - 1, .text s' c.font c.size (qadd margin c.indent) st.y) :: d, ?_, ?_⟩
          · rw [hd, cmds_pagecheck, cmds_advance, push]
            simp
          · intro pc h
            cases h with
            | head => exact ⟨st.pages - 1, s', qadd margin c.indent, st.y, rfl⟩
            | tail _ h => exact hall pc h
      · exact ih (line ++ w ++ " ") st

/-- Every command `addText` appends is a text command in the call's font
and size. -/
theorem addTextM_shape (pr : Prims) (c : TCtx) (text : String) (st st' : St)
    (h : addTextM pr c text st = .ok st') :
    ∃ d, st'.cmds = st.cmds ++ d ∧
      ∀ pc ∈ d, ∃ pg t x yy, pc = (pg, Cmd.text t c.font c.size x yy) := by
  have hpara : ∀ par st st', procPara pr c par st = .ok st' →
      ∃ d, st'.cmds = st.cmds ++ d ∧
        ∀ pc ∈ d, ∃ pg t x yy, pc = (pg, Cmd.text t c.font c.size x yy) := by
    intro par st st' h
    rw [procPara] at h
    by_cases hp : trimStr par = ""
    · rw [if_pos hp] at h
      cases h
      exact ⟨[], by simp [advance], by intro pc hh; cases hh⟩
    · rw [if_neg hp] at h
      dsimp only at h
      obtain ⟨d, hd, hall⟩ := procWords_shape pr c (splitStr par ' ') "" st
      cases hP : procWords pr c (splitStr par ' ') "" st with
      | mk st1 line =>
        rw [hP] at h hd
        dsimp only at h hd
        by_cases hl : trimStr line = ""
        · rw [if_pos hl] at h
          cases h
          exact ⟨d, hd, hall⟩
        · rw [if_neg hl] at h
          cases hdr : drawRetry pr line with
          | error e => rw [hdr] at h; exact Except.noConfusion h
          | ok s' =>
            rw [hdr] at h
            cases h
            refine ⟨d ++ [(st1.pages - 1, Cmd.text s' c.font c.size (qadd margin c.indent) st1.y)], ?_, ?_⟩
            · rw [cmds_advance, push, hd, List.append_assoc]
            · intro pc hh
              rcases List.mem_append.mp hh with h1 | h1
              · exact hall pc h1
              · cases h1 with
                | head => exact ⟨st1.pages - 1, s', qadd margin c.indent, st1.y, rfl⟩
                | tail _ h1 => cases h1
  have hparas : ∀ paras st st', procParas pr c paras st = .ok st' →
      ∃ d, st'.cmds = st.cmds ++ d ∧
        ∀ pc ∈ d, ∃ pg t x yy, pc = (pg, Cmd.text t c.font c.size x yy) := by
    intro paras
    induction paras with
    | nil =>
      intro st st' h
      rw [procParas] at h
      cases h
      exact ⟨[], by simp, by intro pc hh; cases hh⟩
    | cons p tail ih =>
      intro st st' h
      cases tail with
      | nil =>
        rw [procParas] at h
        exact hpara p st st' h
      | cons q rest =>
        rw [procParas] at h
        cases hp : procPara pr c p st with
        | error e => rw [hp] at h; exact Except.noConfusion h
        | ok st1 =>
          rw [hp] at h
          obtain ⟨d1, hd1, hall1⟩ := hpara p st st1 hp
          obtain ⟨d2, hd2, hall2⟩ := ih _ _ h
          refine ⟨d1 ++ d2, ?_, ?_⟩
          · rw [hd2, cmds_advance, hd1, List.append_assoc]
          · intro pc hh
            rcases List.mem_append.mp hh with h1 | h1
            · exact hall1 pc h1
            · exact hall2 pc h1
  rw [addTextM] at h
  by_cases ht : text = ""
  · rw [if_pos ht] at h
    cases h
    exact ⟨[], by simp, by intro pc hh; cases hh⟩
  · rw [if_neg ht] at h
    dsimp only at h
    cases hp : procParas pr c (splitStr (spaceNonAscii (String.mk (spaceBeforeNL text.toList))) '\n') st with
    | error e => rw [hp] at h; exact Except.noConfusion h
    | ok st1 =>
      rw [hp] at h
      cases h
      obtain ⟨d, hd, hall⟩ := hparas _ st st1 hp
      exact ⟨d, by rw [cmds_pagecheck, cmds_advance, hd], hall⟩

theorem countP_append_texts (p : ℕ × Cmd → Bool) (l d : List (ℕ × Cmd))
    (hd : ∀ pc ∈ d, p pc = false) :
    (l ++ d).countP p = l.countP p := by
  rw [List.countP_append]
  have : d.countP p = 0 := by
    rw [List.countP_eq_zero]
    intro pc h
    simp [hd pc h]
  rw [this, Nat.add_zero]

/-- With widths that never exceed `maxWidth`, the word loop draws
nothing: it only accumulates. -/
def accumWords : List String → String → String
  | [], line => line
  | w :: rest, line =>
    if trimStr w = "" then accumWords rest line else accumWords rest (line ++ w ++ " ")

theorem procWords_noWrap (pr : Prims) (c : TCtx)
    (hw : ∀ t, widthEff pr (cleanRN t) c.size ≤ c.maxWidth) :
    ∀ words line st, procWords pr c words line st = (st, accumWords words line) := by
  intro words
  induction words with
  | nil => intro line st; rw [procWords, accumWords]
  | cons w rest ih =>
    intro line st
    rw [procWords, accumWords]
    by_cases hb : trimStr w = ""
    · rw [if_pos hb, if_pos hb]
      exact ih line st
    · rw [if_neg hb, if_neg hb]
      dsimp only
      rw [if_neg (by rw [(qlt_eq_false_iff _ _).mpr (hw (line ++ w ++ " "))]; exact Bool.false_ne_true)]
      exact ih (line ++ w ++ " ") st

/-- Under bounded widths, `addText` of a single-paragraph non-blank text
draws exactly one line (in the call's font and size). -/
theorem addTextM_single (pr : Prims) (c : TCtx) (text : String) (st st' : St)
    (hw : ∀ t, widthEff pr (cleanRN t) c.size ≤ c.maxWidth)
    (hsan : splitStr (spaceNonAscii (String.mk (spaceBeforeNL text.toList))) '\n' = [text])
    (htrim : trimStr (accumWords (splitStr text ' ') "") ≠ "")
    (hptrim : trimStr text ≠ "") (htext : text ≠ "")
    (h : addTextM pr c text st = .ok st') :
    ∃ pg t x yy, st'.cmds = st.cmds ++ [(pg, Cmd.text t c.font c.size x yy)] := by
  rw [addTextM, if_neg htext] at h
  dsimp only at h
  rw [hsan] at h
  rw [procParas] at h
  rw [procPara] at h
  rw [if_neg hptrim] at h
  dsimp only at h
  rw [procWords_noWrap pr c hw] at h
  dsimp only at h
  rw [if_neg htrim] at h
  cases hdr : drawRetry pr (accumWords (splitStr text ' ') "") with
  | error e => rw [hdr] at h; exact Except.noConfusion h
  | ok s' =>
    rw [hdr] at h
    cases h
    refine ⟨st.pages - 1, s', qadd margin c.indent, st.y, ?_⟩
    rw [cmds_pagecheck, cmds_advance, cmds_advance, push]

theorem imageCount_append_texts (l d : List (ℕ × Cmd))
    (hall : ∀ pc ∈ d, ∃ pg t f sz x yy, pc = (pg, Cmd.text t f sz x yy)) :
    imageCount (l ++ d) = imageCount l := by
  apply countP_append_texts
  intro pc h
  obtain ⟨pg, t, f, sz, x, yy, he⟩ := hall pc h
  rw [he]

theorem italic12Count_append_font (l d : List (ℕ × Cmd)) (f : Font) (sz : ℚ)
    (hf : f ≠ Font.italic)
    (hall : ∀ pc ∈ d, ∃ pg t x yy, pc = (pg, Cmd.text t f sz x yy)) :
    italic12Count (l ++ d) = italic12Count l := by
  apply countP_append_texts
  intro pc h
  obtain ⟨pg, t, x, yy, he⟩ := hall pc h
  rw [he]
  cases f with
  | italic => exact absurd rfl hf
  | body => rfl
  | bold => rfl

/-- The state changes of `headingM` and of a body-text `addText` call
preserve the image count and the italic-12 count. -/
theorem headingM_counts (pr : Prims) (s : Sec) (st stH : St)
    (h : headingM pr s st = .ok stH) :
    imageCount stH.cmds = imageCount st.cmds ∧
      italic12Count stH.cmds = italic12Count st.cmds := by
  rw [headingM] at h
  by_cases hh : s.heading ≠ ""
  · rw [if_pos hh] at h
    cases hA : addTextM pr ⟨.bold, 18, 0, contentWidth⟩ s.heading st with
    | error e => rw [hA] at h; exact Except.noConfusion h
    | ok st1 =>
      rw [hA] at h
      cases h
      obtain ⟨d, hd, hall⟩ := addTextM_shape pr _ s.heading st st1 hA
      rw [cmds_advance, hd]
      exact ⟨imageCount_append_texts _ _ (fun pc hh => by
          obtain ⟨pg, t, x, yy, he⟩ := hall pc hh
          exact ⟨pg, t, .bold, 18, x, yy, he⟩),
        italic12Count_append_font _ _ .bold 18 (by intro hx; cases hx) hall⟩
  · rw [if_neg hh] at h
    cases h
    exact ⟨rfl, rfl⟩

theorem bodyText_counts (pr : Prims) (c : TCtx) (hf : c.font ≠ Font.italic)
    (text : String) (st st' : St) (h : addTextM pr c text st = .ok st') :
    imageCount st'.cmds = imageCount st.cmds ∧
      italic12Count st'.cmds = italic12Count st.cmds := by
  obtain ⟨d, hd, hall⟩ := addTextM_shape pr c text st st' h
  rw [hd]
  exact ⟨imageCount_append_texts _ _ (fun pc hh => by
      obtain ⟨pg, t, x, yy, he⟩ := hall pc hh
      exact ⟨pg, t, c.font, c.size, x, yy, he⟩),
    italic12Count_append_font _ _ c.font c.size hf hall⟩

theorem pureE_eq : (pure : St → Except String St) = Except.ok := rfl

theorem italic12Count_append_single (l : List (ℕ × Cmd)) (pg : ℕ) (t : String) (x yy : ℚ) :
    italic12Count (l ++ [(pg, Cmd.text t Font.italic 12 x yy)]) = italic12Count l + 1 := by
  rw [italic12Count, List.countP_append, italic12Count]
  congr 1

theorem placeholder_counts (pr : Prims) (stB stP : St)
    (hw : ∀ t, widthEff pr (cleanRN t) 12 ≤ contentWidth)
    (hA : addTextM pr ⟨.italic, 12, 0, contentWidth⟩
      "(Flowchart visualization unavailable)" stB = .ok stP) :
    imageCount stP.cmds = imageCount stB.cmds ∧
      italic12Count stP.cmds = italic12Count stB.cmds + 1 := by
  obtain ⟨pg, t, x, yy, hd⟩ := addTextM_single pr _ _ stB stP hw
    (by decide) (by decide) (by decide) (by decide) hA
  rw [hd]
  constructor
  · apply imageCount_append_texts
    intro pc hpc
    cases hpc with
    | head => exact ⟨pg, t, .italic, 12, x, yy, rfl⟩
    | tail _ h1 => cases h1
  · exact italic12Count_append_single _ _ _ _ _

/-- C3 (amended): for a section whose layout promises a visual but whose
buffer is missing or undecodable, no image draw is attempted, and an
italic 12pt placeholder line ("(Flowchart visualization unavailable)")
is rendered exactly once if and only if the section is a flowchart
section whose buffer is present but empty.  In every other unavailable
case — null buffer (never assigned), or a non-empty buffer that fails to
decode — the section renders with no placeholder notice at all. -/
theorem C3_amended (pr : Prims) (s : Sec) (st : St)
    (hL : s.layout = "text-with-image")
    (hbad : s.imageBuffer = none ∨ ∃ b, s.imageBuffer = some b ∧ pr.decode b = none)
    (hw : ∀ t, widthEff pr (cleanRN t) 12 ≤ contentWidth) :
    ∀ st', renderSec pr st s = .ok st' →
      imageCount st'.cmds = imageCount st.cmds ∧
      (s.isFlowchart = true ∧ s.imageBuffer = some [] →
        italic12Count st'.cmds = italic12Count st.cmds + 1) ∧
      (¬(s.isFlowchart = true ∧ s.imageBuffer = some []) →
        italic12Count st'.cmds = italic12Count st.cmds) := by
  intro st' h
  rw [renderSec] at h
  cases hH : headingM pr s st with
  | error e => rw [hH] at h; exact Except.noConfusion h
  | ok stH =>
    rw [hH] at h
    obtain ⟨hHimg, hHital⟩ := headingM_counts pr s st stH hH
    rcases hbad with hbuf | ⟨b, hbuf, hdec⟩
    · -- null buffer: the guard fails, the section renders text-only
      rw [hL, hbuf] at h
      simp only [Bind.bind, Except.bind, beq_self_eq_true, Option.isSome_none, Bool.and_false,
        Bool.false_eq_true, if_false] at h
      have hfinal : ∀ stB, imageCount stB.cmds = imageCount stH.cmds →
          italic12Count stB.cmds = italic12Count stH.cmds →
          st' = pagecheck (advance stB (if s.isFlowchart = true then 45 else 35)) →
          imageCount st'.cmds = imageCount st.cmds ∧
          (s.isFlowchart = true ∧ s.imageBuffer = some [] →
            italic12Count st'.cmds = italic12Count st.cmds + 1) ∧
          (¬(s.isFlowchart = true ∧ s.imageBuffer = some []) →
            italic12Count st'.cmds = italic12Count st.cmds) := by
        intro stB h1 h2 he
        have hc : st'.cmds = stB.cmds := by rw [he, cmds_pagecheck, cmds_advance]
        refine ⟨by rw [hc, h1, hHimg], ?_, ?_⟩
        · intro ⟨_, hsome⟩
          rw [hbuf] at hsome
          exact Option.noConfusion hsome
        · intro _
          rw [hc, h2, hHital]
      by_cases ht : s.text ≠ ""
      · rw [if_pos ht] at h
        cases hA : addTextM pr ⟨.body, 12, 0, contentWidth⟩ s.text stH with
        | error e => rw [hA] at h; exact Except.noConfusion h
        | ok stB =>
          rw [hA] at h
          obtain ⟨h1, h2⟩ := bodyText_counts pr _ (by intro hx; cases hx) s.text stH stB hA
          cases h
          exact hfinal stB h1 h2 rfl
      · rw [if_neg ht] at h
        cases h
        exact hfinal stH rfl rfl rfl
    · -- buffer present but undecodable
      rw [hL, hbuf] at h
      simp only [Bind.bind, Except.bind, beq_self_eq_true, Option.isSome_some, Bool.and_self,
        if_true] at h
      have hsome_iff : (s.imageBuffer = some []) ↔ b = [] := by
        rw [hbuf]
        constructor
        · intro hx; cases hx; rfl
        · intro hx; rw [hx]
      cases hF : s.isFlowchart with
      | false =>
        rw [hF] at h
        simp only [Bool.false_eq_true, if_false] at h
        by_cases ht : s.text ≠ ""
        · rw [if_pos ht] at h
          rw [sideBySideM, hbuf, addImageM, hdec] at h
          dsimp only at h
          cases h
          rw [cmds_pagecheck, cmds_advance]
          have hc : (if qlt (qsub stH.y margin) 250 = true then newPage stH else stH).cmds = stH.cmds := by
            split <;> rfl
          rw [hc, hHimg, hHital]
          exact ⟨rfl, fun hx => absurd hx.1 (by simp), fun _ => rfl⟩
        · rw [if_neg ht] at h
          rw [addImageM, hdec] at h
          dsimp only at h
          cases h
          rw [cmds_pagecheck, cmds_advance, hHimg, hHital]
          exact ⟨rfl, fun hx => absurd hx.1 (by simp), fun _ => rfl⟩
      | true =>
        rw [hF] at h
        simp only [if_true] at h
        rw [flowBranch] at h
        simp only [Bind.bind, Except.bind, hbuf, pureE_eq] at h
        by_cases ht : s.text ≠ ""
        · rw [if_pos ht] at h
          cases hA : addTextM pr ⟨.body, 12, 0, contentWidth⟩ s.text stH with
          | error e => rw [hA] at h; exact Except.noConfusion h
          | ok stA =>
            rw [hA] at h
            dsimp only at h
            obtain ⟨hAimg, hAital⟩ := bodyText_counts pr _ (by intro hx; cases hx) s.text stH stA hA
            by_cases hlen : b.length > 0
            · rw [if_pos hlen] at h
              rw [addImageM, hdec] at h
              dsimp only at h
              cases h
              have hne : ¬(true = true ∧ s.imageBuffer = some []) := by
                intro ⟨_, hx⟩
                rw [hsome_iff] at hx
                rw [hx] at hlen
                exact absurd hlen (by simp)
              rw [cmds_pagecheck, cmds_advance, cmds_advance, cmds_advance, hAimg, hAital,
                hHimg, hHital]
              exact ⟨rfl, fun hx => absurd hx hne, fun _ => rfl⟩
            · rw [if_neg hlen] at h
              have hb0 : b = [] := List.length_eq_zero.mp (Nat.eq_zero_of_not_pos hlen)
              cases hA2 : addTextM pr ⟨.italic, 12, 0, contentWidth⟩
                  "(Flowchart visualization unavailable)" (advance stA 20) with
              | error e => rw [hA2] at h; exact Except.noConfusion h
              | ok stP =>
                rw [hA2] at h
                cases h
                obtain ⟨hPimg, hPital⟩ := placeholder_counts pr (advance stA 20) stP hw hA2
                have hph : true = true ∧ s.imageBuffer = some [] := by
                  refine ⟨rfl, ?_⟩
                  rw [hsome_iff]
                  exact hb0
                rw [cmds_pagecheck, cmds_advance, cmds_advance]
                rw [hPimg, hPital]
                rw [cmds_advance, hAimg, hAital, hHimg, hHital]
                exact ⟨rfl, fun _ => rfl, fun hx => absurd hph hx⟩
        · rw [if_neg ht] at h
          by_cases hlen : b.length > 0
          · rw [if_pos hlen] at h
            rw [addImageM, hdec] at h
            dsimp only at h
            cases h
            have hne : ¬(true = true ∧ s.imageBuffer = some []) := by
              intro ⟨_, hx⟩
              rw [hsome_iff] at hx
              rw [hx] at hlen
              exact absurd hlen (by simp)
            rw [cmds_pagecheck, cmds_advance, cmds_advance, hHimg, hHital]
            exact ⟨rfl, fun hx => absurd hx hne, fun _ => rfl⟩
          · rw [if_neg hlen] at h
            have hb0 : b = [] := List.length_eq_zero.mp (Nat.eq_zero_of_not_pos hlen)
            cases hA2 : addTextM pr ⟨.italic, 12, 0, contentWidth⟩
                "(Flowchart visualization unavailable)" stH with
            | error e => rw [hA2] at h; exact Except.noConfusion h
            | ok stP =>
              rw [hA2] at h
              cases h
              obtain ⟨hPimg, hPital⟩ := placeholder_counts pr stH stP hw hA2
              have hph : true = true ∧ s.imageBuffer = some [] := by
                refine ⟨rfl, ?_⟩
                rw [hsome_iff]
                exact hb0
              rw [cmds_pagecheck, cmds_advance, cmds_advance, hPimg, hPital, hHimg, hHital]
              exact ⟨rfl, fun _ => rfl, fun hx => absurd hph hx⟩

/-- The plan of the C3 counterexample: one section promising a visual,
with no visuals available. -/
def planC3 : Plan := ⟨"T", [⟨"H", "hi", true, ""⟩]⟩

/-- Italic-12 (placeholder) line count of a successful run. -/
def italic12OfRun (r : Except String St) : Option ℕ :=
  (exOk r).map fun st => italic12Count st.cmds

/-- A section promised a visual (`includeImage`, layout
`text-with-image`) whose buffer was never produced renders its body text
with *no* placeholder line at all (placeholder count 0, not 1): the
`layout === 'text-with-image' && imageBuffer` guard routes a null-buffer
section to the plain text-only branch. -/
theorem C3_counterexample :
    (buildContent ⟨"s", []⟩ [] [] (some planC3)).sections =
      [{ heading := "H", text := "hi", layout := "text-with-image", imageCaption := "",
         imageBuffer := none, isFlowchart := false }] ∧
      italic12OfRun (generatePDFM okPr (buildContent ⟨"s", []⟩ [] [] (some planC3))) =
        some 0 := by
  decide

/-- The section of the C3 witness: a flowchart section with a present
but empty buffer — the only case that yields the placeholder. -/
def secEmptyFlow : Sec := ⟨"", "", "text-with-image", "", some [], true⟩

/-- The rendered state of the C3 witness run. -/
def stEmptyFlow : St :=
  ⟨1, [(0, Cmd.text "(Flowchart visualization unavailable) " .italic 12 50 742)], mkRat 3283 5⟩

/-- Witness instantiating `C3_amended` on the flowchart/empty-buffer
section: exactly one placeholder line, no image draw. -/
theorem C3_amended_witness :
    imageCount stEmptyFlow.cmds = imageCount st0.cmds ∧
      (secEmptyFlow.isFlowchart = true ∧ secEmptyFlow.imageBuffer = some [] →
        italic12Count stEmptyFlow.cmds = italic12Count st0.cmds + 1) ∧
      (¬(secEmptyFlow.isFlowchart = true ∧ secEmptyFlow.imageBuffer = some []) →
        italic12Count stEmptyFlow.cmds = italic12Count st0.cmds) :=
  C3_amended badDecPr secEmptyFlow st0 rfl (Or.inr ⟨[], rfl, rfl⟩)
    (fun t => by show (0 : ℚ) ≤ contentWidth; norm_num [contentWidth])
    stEmptyFlow (by decide)

/-! ## C2 — the cursor / page-break invariant -/

/-- Decoded natural pixel dimensions are positive (true of every real
image decoder). -/
def DecodePos (pr : Prims) : Prop :=
  ∀ b w h, pr.decode b = some (w, h) → 0 < w ∧ 0 < h

theorem qsub_le_self (a d : ℚ) (hd : 0 ≤ d) : qsub a d ≤ a := by
  rw [qsub_eq]
  linarith

theorem y_advance (st : St) (d : ℚ) : (advance st d).y = qsub st.y d := rfl

theorem y_push (st : St) (c : Cmd) : (push st c).y = st.y := rfl

theorem pagecheck_ub (st : St) (h : st.y ≤ topY) : (pagecheck st).y ≤ topY := by
  rw [pagecheck]
  split
  · exact le_refl _
  · exact h

theorem lineAdvance_nonneg (size : ℚ) (h : 0 ≤ size) : 0 ≤ lineAdvance size := by
  rw [lineAdvance, qmul_eq, mk65_eq]
  positivity

theorem qmul_half_nonneg (size : ℚ) (h : 0 ≤ size) : 0 ≤ qmul size (mkRat 1 2) := by
  rw [qmul_eq, mk12_eq]
  positivity

theorem qmul_fourfifth_nonneg (size : ℚ) (h : 0 ≤ size) : 0 ≤ qmul size (mkRat 4 5) := by
  rw [qmul_eq, mk45_eq]
  positivity

theorem procWords_ub (pr : Prims) (c : TCtx) (hs : 0 ≤ c.size) :
    ∀ words line st, st.y ≤ topY → (procWords pr c words line st).1.y ≤ topY := by
  intro words
  induction words with
  | nil => intro line st h; rw [procWords]; exact h
  | cons w rest ih =>
    intro line st h
    rw [procWords]
    by_cases hb : trimStr w = ""
    · rw [if_pos hb]; exact ih line st h
    · rw [if_neg hb]
      dsimp only
      split
      · cases drawRetry pr line with
        | error e => exact ih line st h
        | ok s' =>
          apply ih
          apply pagecheck_ub
          rw [y_advance, y_push]
          exact le_trans (qsub_le_self _ _ (lineAdvance_nonneg c.size hs)) h
      · exact ih (line ++ w ++ " ") st h

theorem procPara_ub (pr : Prims) (c : TCtx) (hs : 0 ≤ c.size) (par : String) (st st' : St)
    (hy : st.y ≤ topY) (h : procPara pr c par st = .ok st') : st'.y ≤ topY := by
  rw [procPara] at h
  by_cases hp : trimStr par = ""
  · rw [if_pos hp] at h
    cases h
    exact le_trans (qsub_le_self _ _ (qmul_half_nonneg c.size hs)) hy
  · rw [if_neg hp] at h
    dsimp only at h
    have h1 := procWords_ub pr c hs (splitStr par ' ') "" st hy
    cases hP : procWords pr c (splitStr par ' ') "" st with
    | mk st1 line =>
      rw [hP] at h h1
      dsimp only at h h1
      by_cases hl : trimStr line = ""
      · rw [if_pos hl] at h
        cases h
        exact h1
      · rw [if_neg hl] at h
        cases hdr : drawRetry pr line with
        | error e => rw [hdr] at h; exact Except.noConfusion h
        | ok s' =>
          rw [hdr] at h
          cases h
          exact le_trans (qsub_le_self _ _ (lineAdvance_nonneg c.size hs)) h1

theorem procParas_ub (pr : Prims) (c : TCtx) (hs : 0 ≤ c.size) :
    ∀ paras st st', st.y ≤ topY → procParas pr c paras st = .ok st' → st'.y ≤ topY := by
  intro paras
  induction paras with
  | nil =>
    intro st st' hy h
    rw [procParas] at h
    cases h
    exact hy
  | cons p tail ih =>
    intro st st' hy h
    cases tail with
    | nil =>
      rw [procParas] at h
      exact procPara_ub pr c hs p st st' hy h
    | cons q rest =>
      rw [procParas] at h
      cases hp : procPara pr c p st with
      | error e => rw [hp] at h; exact Except.noConfusion h
      | ok st1 =>
        rw [hp] at h
        have h1 := procPara_ub pr c hs p st st1 hy hp
        exact ih _ _ (le_trans (qsub_le_self _ _ (qmul_fourfifth_nonneg c.size hs)) h1) h

theorem addTextM_ub (pr : Prims) (c : TCtx) (hs : 0 ≤ c.size) (text : String) (st st' : St)
    (hy : st.y ≤ topY) (h : addTextM pr c text st = .ok st') : st'.y ≤ topY := by
  rw [addTextM] at h
  by_cases ht : text = ""
  · rw [if_pos ht] at h
    cases h
    exact hy
  · rw [if_neg ht] at h
    dsimp only at h
    cases hp : procParas pr c (splitStr (spaceNonAscii (String.mk (spaceBeforeNL text.toList))) '\n') st with
    | error e => rw [hp] at h; exact Except.noConfusion h
    | ok st1 =>
      rw [hp] at h
      cases h
      apply pagecheck_ub
      rw [y_advance]
      exact le_trans (qsub_le_self _ _ (qmul_half_nonneg c.size hs))
        (procParas_ub pr c hs _ st st1 hy hp)

theorem diagDims_h_nonneg (w h : ℚ) (hw : 0 < w) (hh : 0 < h) : 0 ≤ (diagDims w h).2 := by
  rw [diagDims]
  simp only [qmul_eq, qdiv_eq, mk12_eq, mk25_eq, contentWidth, pageHeight]
  split_ifs
  · dsimp only; norm_num
  · dsimp only; positivity

theorem flowDims_h_nonneg (w h : ℚ) (hw : 0 < w) (hh : 0 < h) : 0 ≤ (flowDims w h).2 := by
  rw [flowDims]
  simp only [qmul_eq, qdiv_eq, qmin_eq, mk12_eq, mk45_eq, contentWidth, pageHeight]
  split_ifs
  · dsimp only
    have h1 : (0 : ℚ) ≤ min (512 * (4 / 5) / w) (792 * (1 / 2) / h) := by
      apply le_min <;> positivity
    positivity
  · dsimp only
    exact le_of_lt hh

/-- `addImage`: the resulting cursor stays below the top of the page,
and a successful result's `y` (image top) and `bottom` are similarly
bounded, with `bottom` equal to the resulting cursor. -/
theorem addImageM_ub (pr : Prims) (hd : DecodePos pr) (buf : Option Buffer)
    (caption : String) (isFl : Bool) (st : St) (hy : st.y ≤ topY) :
    (addImageM pr buf caption isFl st).1.y ≤ topY ∧
      ∀ info, (addImageM pr buf caption isFl st).2 = some info →
        info.y ≤ topY ∧ info.bottom = (addImageM pr buf caption isFl st).1.y := by
  rw [addImageM.eq_def]
  cases buf with
  | none => exact ⟨hy, fun info hi => Option.noConfusion hi⟩
  | some b =>
    dsimp only
    cases hdec : pr.decode b with
    | none => exact ⟨hy, fun info hi => Option.noConfusion hi⟩
    | some wh =>
      obtain ⟨w, h⟩ := wh
      obtain ⟨hw0, hh0⟩ := hd b w h hdec
      dsimp only
      have hdims : 0 ≤ (if isFl = true then flowDims w h else diagDims w h).2 := by
        split
        · exact flowDims_h_nonneg w h hw0 hh0
        · exact diagDims_h_nonneg w h hw0 hh0
      generalize hg : (if qlt (qsub st.y (qadd (if isFl = true then flowDims w h else diagDims w h).2
        (if caption ≠ "" then (45 : ℚ) else 20))) margin = true then newPage st else st) = st1
      have h1 : st1.y ≤ topY := by
        rw [← hg]
        by_cases hq : qlt (qsub st.y (qadd (if isFl = true then flowDims w h else diagDims w h).2
            (if caption ≠ "" then (45 : ℚ) else 20))) margin = true
        · rw [if_pos hq]
          exact le_of_eq rfl
        · rw [if_neg hq]
          exact hy
      by_cases hc : caption ≠ ""
      · rw [if_pos hc]
        cases pr.draw ("Figure: " ++ caption) with
        | error e =>
          dsimp only
          exact ⟨by rw [y_push]; exact h1, fun info hi => Option.noConfusion hi⟩
        | ok u =>
          dsimp only
          constructor
          · apply pagecheck_ub
            show qsub (qsub (qsub st1.y _) 25) _ ≤ topY
            rw [qsub_eq, qsub_eq, qsub_eq]
            have hc2 : (0 : ℚ) ≤ (if isFl = true then (50 : ℚ) else 35) := by
              split <;> norm_num
            linarith [h1, hdims, hc2]
          · intro info hi
            cases hi
            exact ⟨h1, rfl⟩
      · rw [if_neg hc]
        dsimp only
        constructor
        · apply pagecheck_ub
          show qsub (qsub st1.y _) 25 ≤ topY
          rw [qsub_eq, qsub_eq]
          linarith [h1, hdims]
        · intro info hi
          cases hi
          exact ⟨h1, rfl⟩

theorem p2Parts_ub (pr : Prims) :
    ∀ parts first st st', st.y ≤ topY → p2Parts pr parts first st = .ok st' →
      st'.y ≤ topY := by
  intro parts
  induction parts with
  | nil =>
    intro first st st' hy h
    rw [p2Parts] at h
    cases h
    exact hy
  | cons p rest ih =>
    intro first st st' hy h
    rw [p2Parts] at h
    have hstep : (if first then st else pagecheck (advance st 18)).y ≤ topY := by
      split
      · exact hy
      · exact pagecheck_ub _ (le_trans (qsub_le_self _ _ (by norm_num)) hy)
    by_cases hp : p ≠ ""
    · rw [if_pos hp] at h
      cases hdr : drawRetry pr p with
      | error e => rw [hdr] at h; exact Except.noConfusion h
      | ok s' =>
        rw [hdr] at h
        exact ih false _ st' (pagecheck_ub _ (le_trans (qsub_le_self _ _ (by norm_num)) (by rw [y_push]; exact hstep))) h
    · rw [if_neg hp] at h
      exact ih false _ st' hstep h

theorem phase2_ub (pr : Prims) :
    ∀ words line st st' line', st.y ≤ topY → phase2 pr words line st = .ok (st', line') →
      st'.y ≤ topY := by
  intro words
  induction words with
  | nil =>
    intro line st st' line' hy h
    rw [phase2] at h
    cases h
    exact hy
  | cons w rest ih =>
    intro line st st' line' hy h
    rw [phase2] at h
    cases hm : pr.width (line ++ w ++ " ") 12 with
    | error e => rw [hm] at h; exact Except.noConfusion h
    | ok lw =>
      rw [hm] at h
      dsimp only at h
      split at h
      · cases hdr : drawRetry pr line with
        | error e => rw [hdr] at h; exact Except.noConfusion h
        | ok s' =>
          rw [hdr] at h
          dsimp only at h
          have h2 : (pagecheck (advance (push st (.text s' .body 12 margin st.y)) 18)).y ≤ topY :=
            pagecheck_ub _ (le_trans (qsub_le_self _ _ (by norm_num)) (by rw [y_push]; exact hy))
          split at h
          · cases hp2 : p2Parts pr (splitStr w '\n') true
                (pagecheck (advance (push st (.text s' .body 12 margin st.y)) 18)) with
            | error e => rw [hp2] at h; exact Except.noConfusion h
            | ok st2 =>
              rw [hp2] at h
              exact ih "" _ st' line' (p2Parts_ub pr _ _ _ _ h2 hp2) h
          · exact ih _ _ st' line' h2 h
      · exact ih _ _ st' line' hy h

theorem p2Block_ub (pr : Prims) (imageBottom : ℚ) (line : String) (rem : List String)
    (st st' : St) (hib : imageBottom ≤ topY)
    (h : p2Block pr imageBottom line rem st = .ok st') : st'.y ≤ topY := by
  rw [p2Block] at h
  simp only [Bind.bind, Except.bind] at h
  have hstart : ({ st with y := qsub imageBottom 25 } : St).y ≤ topY :=
    le_trans (qsub_le_self _ _ (by norm_num)) hib
  have hnext : ∀ stA : St, stA.y ≤ topY →
      (match phase2 pr rem "" stA with
        | Except.error e => (Except.error e : Except String St)
        | Except.ok (st, line) =>
          if trimStr line ≠ "" then
            match drawRetry pr line with
            | Except.error e => Except.error e
            | Except.ok s' => Except.ok (advance (push st (.text s' .body 12 margin st.y)) 18)
          else Except.ok st) = .ok st' → st'.y ≤ topY := by
    intro stA hyA hh
    cases hp : phase2 pr rem "" stA with
    | error e => rw [hp] at hh; exact Except.noConfusion hh
    | ok r =>
      obtain ⟨st2, line2⟩ := r
      rw [hp] at hh
      dsimp only at hh
      have h2 : st2.y ≤ topY := phase2_ub pr rem "" stA st2 line2 hyA hp
      by_cases hl : trimStr line2 ≠ ""
      · rw [if_pos hl] at hh
        cases hdr : drawRetry pr line2 with
        | error e => rw [hdr] at hh; exact Except.noConfusion hh
        | ok s' =>
          rw [hdr] at hh
          cases hh
          exact le_trans (qsub_le_self _ _ (by norm_num)) (by rw [y_push]; exact h2)
      · rw [if_neg hl] at hh
        cases hh
        exact h2
  by_cases hl : trimStr line ≠ ""
  · rw [if_pos hl] at h
    cases hdr : pr.draw line with
    | error e => rw [hdr] at h; exact Except.noConfusion h
    | ok u =>
      rw [hdr] at h
      exact hnext _ (le_trans (qsub_le_self _ _ (by norm_num)) (by rw [y_push]; exact hstart)) h
  · rw [if_neg hl] at h
    exact hnext _ hstart h

theorem p1Tail_ub (pr : Prims) (textX imageBottom : ℚ) (st : St) (ty : ℚ) (line : String)
    (rem : List String) (lg : Bool) (st' : St) (hib : imageBottom ≤ topY)
    (h : p1Tail pr textX imageBottom (st, ty, line, rem, lg) = .ok st') : st'.y ≤ topY := by
  rw [p1Tail] at h
  dsimp only at h
  cases lg with
  | true =>
    rw [if_pos rfl] at h
    exact p2Block_ub pr imageBottom line rem st st' hib h
  | false =>
    rw [if_neg (by intro hx; exact Bool.noConfusion hx)] at h
    by_cases hl : trimStr line ≠ ""
    · rw [if_pos hl] at h
      cases hdr : pr.draw line with
      | error e => rw [hdr] at h; exact Except.noConfusion h
      | ok u =>
        rw [hdr] at h
        cases h
        show qmin (qsub ty 18) imageBottom ≤ topY
        rw [qmin_eq]
        exact le_trans (min_le_right _ _) hib
    · rw [if_neg hl] at h
      cases h
      show qmin ty imageBottom ≤ topY
      rw [qmin_eq]
      exact le_trans (min_le_right _ _) hib

theorem sideBySideM_ub (pr : Prims) (hd : DecodePos pr) (s : Sec) (st st' : St)
    (hy : st.y ≤ topY) (h : sideBySideM pr s st = .ok st') : st'.y ≤ topY := by
  rw [sideBySideM] at h
  have hstep : (if qlt (qsub st.y margin) 250 = true then newPage st else st).y ≤ topY := by
    split
    · exact le_of_eq rfl
    · exact hy
  set stA := if qlt (qsub st.y margin) 250 = true then newPage st else st with hstA
  obtain ⟨h1, h2⟩ := addImageM_ub pr hd s.imageBuffer s.imageCaption false stA hstep
  cases hP : addImageM pr s.imageBuffer s.imageCaption false stA with
  | mk stB res =>
    rw [hP] at h h1 h2
    dsimp only at h h1 h2
    cases res with
    | none =>
      cases h
      exact h1
    | some info =>
      obtain ⟨hiy, hib⟩ := h2 info rfl
      dsimp only at h
      cases hp : phase1 pr (qadd (qadd info.x info.w) 30)
          (qsub (qsub contentWidth info.w) 30) info.bottom
          (splitStr s.text ' ') "" info.y stB with
      | error e => rw [hp] at h; exact Except.noConfusion h
      | ok r =>
        rw [hp] at h
        obtain ⟨st2, ty2, line2, rem2, lg2⟩ := r
        exact p1Tail_ub pr _ info.bottom st2 ty2 line2 rem2 lg2 st' (hib ▸ h1) h

theorem flowBranch_ub (pr : Prims) (hd : DecodePos pr) (s : Sec) (st st' : St)
    (hy : st.y ≤ topY) (h : flowBranch pr s st = .ok st') : st'.y ≤ topY := by
  rw [flowBranch] at h
  simp only [Bind.bind, Except.bind, pureE_eq] at h
  by_cases ht : s.text ≠ ""
  · rw [if_pos ht] at h
    cases hA : addTextM pr ⟨.body, 12, 0, contentWidth⟩ s.text st with
    | error e => rw [hA] at h; exact Except.noConfusion h
    | ok stT =>
      rw [hA] at h
      dsimp only at h
      have hyA : (advance stT 20).y ≤ topY :=
        le_trans (qsub_le_self _ _ (by norm_num))
          (addTextM_ub pr _ (by norm_num) s.text st stT hy hA)
      cases hsb : s.imageBuffer with
      | some b =>
        rw [hsb] at h
        dsimp only at h
        by_cases hlen : b.length > 0
        · rw [if_pos hlen] at h
          cases h
          exact le_trans (qsub_le_self _ _ (by norm_num))
            (addImageM_ub pr hd (some b) s.imageCaption true _ hyA).1
        · rw [if_neg hlen] at h
          cases hA2 : addTextM pr ⟨.italic, 12, 0, contentWidth⟩
              "(Flowchart visualization unavailable)" (advance stT 20) with
          | error e => rw [hA2] at h; exact Except.noConfusion h
          | ok stP =>
            rw [hA2] at h
            cases h
            exact le_trans (qsub_le_self _ _ (by norm_num))
              (addTextM_ub pr _ (by norm_num) _ _ stP hyA hA2)
      | none =>
        rw [hsb] at h
        dsimp only at h
        cases hA2 : addTextM pr ⟨.italic, 12, 0, contentWidth⟩
            "(Flowchart visualization unavailable)" (advance stT 20) with
        | error e => rw [hA2] at h; exact Except.noConfusion h
        | ok stP =>
          rw [hA2] at h
          cases h
          exact le_trans (qsub_le_self _ _ (by norm_num))
            (addTextM_ub pr _ (by norm_num) _ _ stP hyA hA2)
  · rw [if_neg ht] at h
    cases hsb : s.imageBuffer with
    | some b =>
      rw [hsb] at h
      dsimp only at h
      by_cases hlen : b.length > 0
      · rw [if_pos hlen] at h
        cases h
        exact le_trans (qsub_le_self _ _ (by norm_num))
          (addImageM_ub pr hd (some b) s.imageCaption true _ hy).1
      · rw [if_neg hlen] at h
        cases hA2 : addTextM pr ⟨.italic, 12, 0, contentWidth⟩
            "(Flowchart visualization unavailable)" st with
        | error e => rw [hA2] at h; exact Except.noConfusion h
        | ok stP =>
          rw [hA2] at h
          cases h
          exact le_trans (qsub_le_self _ _ (by norm_num))
            (addTextM_ub pr _ (by norm_num) _ _ stP hy hA2)
    | none =>
      rw [hsb] at h
      dsimp only at h
      cases hA2 : addTextM pr ⟨.italic, 12, 0, contentWidth⟩
          "(Flowchart visualization unavailable)" st with
      | error e => rw [hA2] at h; exact Except.noConfusion h
      | ok stP =>
        rw [hA2] at h
        cases h
        exact le_trans (qsub_le_self _ _ (by norm_num))
          (addTextM_ub pr _ (by norm_num) _ _ stP hy hA2)

theorem headingM_ub (pr : Prims) (s : Sec) (st st' : St) (hy : st.y ≤ topY)
    (h : headingM pr s st = .ok st') : st'.y ≤ topY := by
  rw [headingM] at h
  by_cases hh : s.heading ≠ ""
  · rw [if_pos hh] at h
    cases hA : addTextM pr ⟨.bold, 18, 0, contentWidth⟩ s.heading st with
    | error e => rw [hA] at h; exact Except.noConfusion h
    | ok stT =>
      rw [hA] at h
      cases h
      exact le_trans (qsub_le_self _ _ (by norm_num))
        (addTextM_ub pr _ (by norm_num) s.heading st stT hy hA)
  · rw [if_neg hh] at h
    cases h
    exact hy
theorem pagecheck_lb (st : St) : margin ≤ (pagecheck st).y := by
  rw [pagecheck]
  by_cases h : qlt st.y margin = true
  · rw [if_pos h]
    show margin ≤ (newPage st).y
    norm_num [newPage, margin, topY]
  · rw [if_neg h]
    rw [Bool.not_eq_true, qlt_eq_false_iff] at h
    exact h

theorem pagecheck_advance_bounds (st : St) (d : ℚ) (hd : 0 ≤ d) (hy : st.y ≤ topY) :
    margin ≤ (pagecheck (advance st d)).y ∧ (pagecheck (advance st d)).y ≤ topY :=
  ⟨pagecheck_lb _, pagecheck_ub _ (le_trans (qsub_le_self _ _ hd) hy)⟩

theorem renderSec_ub (pr : Prims) (hd : DecodePos pr) (s : Sec) (st st' : St)
    (hy : st.y ≤ topY) (h : renderSec pr st s = .ok st') :
    margin ≤ st'.y ∧ st'.y ≤ topY := by
  rw [renderSec] at h
  simp only [Bind.bind, Except.bind, pureE_eq] at h
  cases hH : headingM pr s st with
  | error e => rw [hH] at h; exact Except.noConfusion h
  | ok stH =>
    rw [hH] at h
    dsimp only at h
    have hyH : stH.y ≤ topY := headingM_ub pr s st stH hy hH
    have hgap : (0:ℚ) ≤ (if s.isFlowchart then (45:ℚ) else 35) := by
      split <;> norm_num
    by_cases hL : (s.layout == "text-with-image" && s.imageBuffer.isSome) = true
    · rw [if_pos hL] at h
      by_cases hF : s.isFlowchart = true
      · rw [if_pos hF] at h
        cases hB : flowBranch pr s stH with
        | error e => rw [hB] at h; exact Except.noConfusion h
        | ok stM =>
          rw [hB] at h
          cases h
          exact pagecheck_advance_bounds stM _ hgap
            (flowBranch_ub pr hd s stH stM hyH hB)
      · rw [if_neg hF] at h
        by_cases hT : s.text ≠ ""
        · rw [if_pos hT] at h
          cases hB : sideBySideM pr s stH with
          | error e => rw [hB] at h; exact Except.noConfusion h
          | ok stM =>
            rw [hB] at h
            cases h
            exact pagecheck_advance_bounds stM _ hgap
              (sideBySideM_ub pr hd s stH stM hyH hB)
        · rw [if_neg hT] at h
          cases h
          exact pagecheck_advance_bounds _ _ hgap
            (addImageM_ub pr hd s.imageBuffer s.imageCaption false stH hyH).1
    · rw [if_neg hL] at h
      by_cases hT : s.text ≠ ""
      · rw [if_pos hT] at h
        cases hB : addTextM pr ⟨.body, 12, 0, contentWidth⟩ s.text stH with
        | error e => rw [hB] at h; exact Except.noConfusion h
        | ok stM =>
          rw [hB] at h
          cases h
          exact pagecheck_advance_bounds stM _ hgap
            (addTextM_ub pr _ (by norm_num) s.text stH stM hyH hB)
      · rw [if_neg hT] at h
        cases h
        exact pagecheck_advance_bounds stH _ hgap hyH

/-- Thirty one-word paragraphs: enough to walk the cursor below the
bottom margin, since the final line of each paragraph is drawn in
`addText` without any page check (the check only runs after wrapped
lines and at the very end of `addText`). -/
def t30 : String := "a\na\na\na\na\na\na\na\na\na\na\na\na\na\na\na\na\na\na\na\na\na\na\na\na\na\na\na\na\na"

/-- The y coordinates of draw commands issued strictly below the bottom
margin during a successful render. -/
def lowYs (r : Except String St) : Option (List ℚ) :=
  match r with
  | .ok st => some ((st.cmds.map (fun pc => pc.2.yPos)).filter (fun yv => qlt yv margin))
  | .error _ => none

/-- C2: the literal invariant is false — a document whose only section
is thirty one-line paragraphs draws its last line at `y = 46`, below the
bottom margin of 50: `addText` draws each paragraph's final line with no
page check before the draw, and the inter-paragraph and half-size
advances also run unchecked, so the cursor can sit below `margin` at a
draw. -/
theorem C2_counterexample :
    lowYs (generatePDFM okPr ⟨"", [{ text := t30 }]⟩) = some [mkRat 46 1] ∧
      qlt (mkRat 46 1) margin = true := by
  constructor
  · decide
  · decide

theorem okPr_decodePos : DecodePos okPr := by
  intro b w h hh
  simp only [okPr] at hh
  cases hh
  norm_num

/-- C2 (amended): the invariant holds at section granularity — if the
cursor is at most `pageHeight - margin` when a section starts, then
after the section renders successfully (for any primitives whose decoder
returns positive dimensions) the cursor satisfies
`margin ≤ y ≤ pageHeight - margin`, because every section ends with the
inter-section gap followed by the reactive page check, and no step of a
section ever raises the cursor above the top margin. -/
theorem C2_amended (pr : Prims) (s : Sec) (st st' : St) (hd : DecodePos pr)
    (hy : st.y ≤ pageHeight - margin) (h : renderSec pr st s = .ok st') :
    margin ≤ st'.y ∧ st'.y ≤ pageHeight - margin := by
  rw [← topY_eq] at hy ⊢
  exact renderSec_ub pr hd s st st' hy h

/-- Witness for C2 (amended): the empty section run from the initial
state lands the cursor at 707, inside the band. -/
theorem C2_amended_witness :
    margin ≤ (St.mk 1 [] (mkRat 707 1)).y ∧
      (St.mk 1 [] (mkRat 707 1)).y ≤ pageHeight - margin :=
  C2_amended okPr {} st0 (St.mk 1 [] (mkRat 707 1)) okPr_decodePos
    (by norm_num [st0, topY, pageHeight, margin]) (by decide)

/-! ## C5 — the two-phase side-by-side text flow -/

/-- The x coordinate a command is drawn at. -/
def Cmd.xPos : Cmd → ℚ
  | .text _ _ _ x _ => x
  | .image x _ _ _ => x

theorem cmds_push (st : St) (c : Cmd) :
    (push st c).cmds = st.cmds ++ [(st.pages - 1, c)] := rfl

/-- Phase-1 inner parts loop: given the cursor starts at or above
`imageBottom`, every command it draws sits at `y ≥ imageBottom` in the
right column (`x = textX`), and when it does not report the text as
longer the final cursor is still at or above `imageBottom`. -/
theorem p1Parts_cols (pr : Prims) (textX imageBottom : ℚ) :
    ∀ parts first ty st st' ty' longer,
      imageBottom ≤ ty →
      p1Parts pr textX imageBottom parts first ty st = .ok (st', ty', longer) →
      (∃ d, st'.cmds = st.cmds ++ d ∧
        ∀ pc ∈ d, imageBottom ≤ Cmd.yPos pc.2 ∧ Cmd.xPos pc.2 = textX) ∧
      (longer = false → imageBottom ≤ ty') := by
  intro parts
  induction parts with
  | nil =>
    intro first ty st st' ty' longer hb h
    rw [p1Parts] at h
    cases h
    exact ⟨⟨[], by simp, fun pc hpc => absurd hpc (List.not_mem_nil pc)⟩, fun _ => hb⟩
  | cons p rest ih =>
    intro first ty st st' ty' longer hb h
    cases first with
    | true =>
      rw [p1Parts] at h
      by_cases hp : p ≠ ""
      · rw [if_pos hp] at h
        cases hD : pr.draw p with
        | error e => rw [hD] at h; exact Except.noConfusion h
        | ok u =>
          rw [hD] at h
          dsimp only at h
          by_cases hlt : qlt (qsub ty 18) imageBottom = true
          · rw [if_pos hlt] at h
            cases h
            refine ⟨⟨[(st.pages - 1, Cmd.text p .body 12 textX ty)], by rw [cmds_push], ?_⟩,
              fun hx => Bool.noConfusion hx⟩
            intro pc hpc
            rw [List.mem_singleton] at hpc
            subst hpc
            exact ⟨hb, rfl⟩
          · rw [if_neg hlt] at h
            have hb1 : imageBottom ≤ qsub ty 18 := by
              rw [Bool.not_eq_true, qlt_eq_false_iff] at hlt
              exact hlt
            obtain ⟨⟨d, hd, hall⟩, hlg⟩ :=
              ih false (qsub ty 18) (push st (.text p .body 12 textX ty)) st' ty' longer hb1 h
            refine ⟨⟨(st.pages - 1, Cmd.text p .body 12 textX ty) :: d, ?_, ?_⟩, hlg⟩
            · rw [hd, cmds_push]; simp
            · intro pc hpc
              rw [List.mem_cons] at hpc
              cases hpc with
              | inl he => subst he; exact ⟨hb, rfl⟩
              | inr hm => exact hall pc hm
      · rw [if_neg hp] at h
        exact ih false ty st st' ty' longer hb h
    | false =>
      rw [p1Parts] at h
      dsimp only at h
      by_cases hlt : qlt (qsub ty 18) imageBottom = true
      · rw [if_pos hlt] at h
        cases h
        exact ⟨⟨[], by simp, fun pc hpc => absurd hpc (List.not_mem_nil pc)⟩,
          fun hx => Bool.noConfusion hx⟩
      · rw [if_neg hlt] at h
        have hb1 : imageBottom ≤ qsub ty 18 := by
          rw [Bool.not_eq_true, qlt_eq_false_iff] at hlt
          exact hlt
        by_cases hp : p ≠ ""
        · rw [if_pos hp] at h
          cases hD : pr.draw p with
          | error e => rw [hD] at h; exact Except.noConfusion h
          | ok u =>
            rw [hD] at h
            dsimp only at h
            by_cases hlt2 : qlt (qsub (qsub ty 18) 18) imageBottom = true
            · rw [if_pos hlt2] at h
              cases h
              refine ⟨⟨[(st.pages - 1, Cmd.text p .body 12 textX (qsub ty 18))],
                by rw [cmds_push], ?_⟩, fun hx => Bool.noConfusion hx⟩
              intro pc hpc
              rw [List.mem_singleton] at hpc
              subst hpc
              exact ⟨hb1, rfl⟩
            · rw [if_neg hlt2] at h
              have hb2 : imageBottom ≤ qsub (qsub ty 18) 18 := by
                rw [Bool.not_eq_true, qlt_eq_false_iff] at hlt2
                exact hlt2
              obtain ⟨⟨d, hd, hall⟩, hlg⟩ :=
                ih false (qsub (qsub ty 18) 18)
                  (push st (.text p .body 12 textX (qsub ty 18))) st' ty' longer hb2 h
              refine ⟨⟨(st.pages - 1, Cmd.text p .body 12 textX (qsub ty 18)) :: d, ?_, ?_⟩, hlg⟩
              · rw [hd, cmds_push]; simp
              · intro pc hpc
                rw [List.mem_cons] at hpc
                cases hpc with
                | inl he => subst he; exact ⟨hb1, rfl⟩
                | inr hm => exact hall pc hm
        · rw [if_neg hp] at h
          exact ih false (qsub ty 18) st st' ty' longer hb1 h

/-- Phase 1: given the cursor starts at or above `imageBottom`, every
line it draws is in the right column (`x = textX`) at `y ≥ imageBottom`,
and if it does not report the text as longer than the image the final
text cursor is still at or above `imageBottom`. -/
theorem phase1_cols (pr : Prims) (textX textWidth imageBottom : ℚ) :
    ∀ words line ty st st' ty' line' rem longer,
      imageBottom ≤ ty →
      phase1 pr textX textWidth imageBottom words line ty st =
        .ok (st', ty', line', rem, longer) →
      (∃ d, st'.cmds = st.cmds ++ d ∧
        ∀ pc ∈ d, imageBottom ≤ Cmd.yPos pc.2 ∧ Cmd.xPos pc.2 = textX) ∧
      (longer = false → imageBottom ≤ ty') := by
  intro words
  induction words with
  | nil =>
    intro line ty st st' ty' line' rem longer hb h
    rw [phase1] at h
    cases h
    exact ⟨⟨[], by simp, fun pc hpc => absurd hpc (List.not_mem_nil pc)⟩, fun _ => hb⟩
  | cons w rest ih =>
    intro line ty st st' ty' line' rem longer hb h
    rw [phase1] at h
    dsimp only at h
    split at h
    · cases hD : pr.draw line with
      | error e => rw [hD] at h; exact Except.noConfusion h
      | ok u =>
        rw [hD] at h
        dsimp only at h
        by_cases hlt : qlt (qsub ty 18) imageBottom = true
        · rw [if_pos hlt] at h
          cases h
          refine ⟨⟨[(st.pages - 1, Cmd.text line .body 12 textX ty)], by rw [cmds_push], ?_⟩,
            fun hx => Bool.noConfusion hx⟩
          intro pc hpc
          rw [List.mem_singleton] at hpc
          subst hpc
          exact ⟨hb, rfl⟩
        · rw [if_neg hlt] at h
          have hb1 : imageBottom ≤ qsub ty 18 := by
            rw [Bool.not_eq_true, qlt_eq_false_iff] at hlt
            exact hlt
          by_cases hnl : strIncl w "\n" = true
          · rw [if_pos hnl] at h
            cases hP : p1Parts pr textX imageBottom (splitStr w '\n') true (qsub ty 18)
                (push st (.text line .body 12 textX ty)) with
            | error e => rw [hP] at h; exact Except.noConfusion h
            | ok r =>
              obtain ⟨st2, ty2, lg2⟩ := r
              rw [hP] at h
              dsimp only at h
              obtain ⟨⟨d1, hd1, hall1⟩, hlg1⟩ :=
                p1Parts_cols pr textX imageBottom (splitStr w '\n') true (qsub ty 18)
                  (push st (.text line .body 12 textX ty)) st2 ty2 lg2 hb1 hP
              cases lg2 with
              | true =>
                rw [if_pos rfl] at h
                cases h
                refine ⟨⟨(st.pages - 1, Cmd.text line .body 12 textX ty) :: d1, ?_, ?_⟩,
                  fun hx => Bool.noConfusion hx⟩
                · rw [hd1, cmds_push]; simp
                · intro pc hpc
                  rw [List.mem_cons] at hpc
                  cases hpc with
                  | inl he => subst he; exact ⟨hb, rfl⟩
                  | inr hm => exact hall1 pc hm
              | false =>
                rw [if_neg (fun hx => Bool.noConfusion hx)] at h
                obtain ⟨⟨d2, hd2, hall2⟩, hlg2⟩ :=
                  ih "" ty2 st2 st' ty' line' rem longer (hlg1 rfl) h
                refine ⟨⟨(st.pages - 1, Cmd.text line .body 12 textX ty) :: (d1 ++ d2), ?_, ?_⟩,
                  hlg2⟩
                · rw [hd2, hd1, cmds_push]; simp
                · intro pc hpc
                  rw [List.mem_cons] at hpc
                  cases hpc with
                  | inl he => subst he; exact ⟨hb, rfl⟩
                  | inr hm =>
                    rw [List.mem_append] at hm
                    cases hm with
                    | inl hm1 => exact hall1 pc hm1
                    | inr hm2 => exact hall2 pc hm2
          · rw [if_neg hnl] at h
            obtain ⟨⟨d2, hd2, hall2⟩, hlg⟩ :=
              ih (if endsW w "\n" then "" else w ++ " ") (qsub ty 18)
                (push st (.text line .body 12 textX ty)) st' ty' line' rem longer hb1 h
            refine ⟨⟨(st.pages - 1, Cmd.text line .body 12 textX ty) :: d2, ?_, ?_⟩, hlg⟩
            · rw [hd2, cmds_push]; simp
            · intro pc hpc
              rw [List.mem_cons] at hpc
              cases hpc with
              | inl he => subst he; exact ⟨hb, rfl⟩
              | inr hm => exact hall2 pc hm
    · exact ih (cleanRN (line ++ cleanRN w ++ " ")) ty st st' ty' line' rem longer hb h

/-- The phase-2 inner parts loop draws only at the left margin (full
content width). -/
theorem p2Parts_col (pr : Prims) :
    ∀ parts first st st', p2Parts pr parts first st = .ok st' →
      ∃ d, st'.cmds = st.cmds ++ d ∧ ∀ pc ∈ d, Cmd.xPos pc.2 = margin := by
  intro parts
  induction parts with
  | nil =>
    intro first st st' h
    rw [p2Parts] at h
    cases h
    exact ⟨[], by simp, fun pc hpc => absurd hpc (List.not_mem_nil pc)⟩
  | cons p rest ih =>
    intro first st st' h
    rw [p2Parts] at h
    have hcm : (if first then st else pagecheck (advance st 18)).cmds = st.cmds := by
      split
      · rfl
      · rw [cmds_pagecheck, cmds_advance]
    by_cases hp : p ≠ ""
    · rw [if_pos hp] at h
      cases hdr : drawRetry pr p with
      | error e => rw [hdr] at h; exact Except.noConfusion h
      | ok s' =>
        rw [hdr] at h
        dsimp only at h
        obtain ⟨d, hd, hall⟩ := ih false _ st' h
        refine ⟨((if first then st else pagecheck (advance st 18)).pages - 1,
          Cmd.text s' .body 12 margin (if first then st else pagecheck (advance st 18)).y) :: d,
          ?_, ?_⟩
        · rw [hd, cmds_pagecheck, cmds_advance, cmds_push, hcm]
          simp
        · intro pc hpc
          rw [List.mem_cons] at hpc
          cases hpc with
          | inl he => subst he; rfl
          | inr hm => exact hall pc hm
    · rw [if_neg hp] at h
      obtain ⟨d, hd, hall⟩ := ih false _ st' h
      exact ⟨d, by rw [hd, hcm], hall⟩

/-- Phase 2 draws only at the left margin (full content width). -/
theorem phase2_col (pr : Prims) :
    ∀ words line st st' line', phase2 pr words line st = .ok (st', line') →
      ∃ d, st'.cmds = st.cmds ++ d ∧ ∀ pc ∈ d, Cmd.xPos pc.2 = margin := by
  intro words
  induction words with
  | nil =>
    intro line st st' line' h
    rw [phase2] at h
    cases h
    exact ⟨[], by simp, fun pc hpc => absurd hpc (List.not_mem_nil pc)⟩
  | cons w rest ih =>
    intro line st st' line' h
    rw [phase2] at h
    cases hm : pr.width (line ++ w ++ " ") 12 with
    | error e => rw [hm] at h; exact Except.noConfusion h
    | ok lw =>
      rw [hm] at h
      dsimp only at h
      split at h
      · cases hdr : drawRetry pr line with
        | error e => rw [hdr] at h; exact Except.noConfusion h
        | ok s' =>
          rw [hdr] at h
          dsimp only at h
          split at h
          · cases hp2 : p2Parts pr (splitStr w '\n') true
                (pagecheck (advance (push st (.text s' .body 12 margin st.y)) 18)) with
            | error e => rw [hp2] at h; exact Except.noConfusion h
            | ok st2 =>
              rw [hp2] at h
              obtain ⟨d1, hd1, hall1⟩ := p2Parts_col pr (splitStr w '\n') true _ st2 hp2
              obtain ⟨d2, hd2, hall2⟩ := ih "" st2 st' line' h
              refine ⟨(st.pages - 1, Cmd.text s' .body 12 margin st.y) :: (d1 ++ d2), ?_, ?_⟩
              · rw [hd2, hd1, cmds_pagecheck, cmds_advance, cmds_push]
                simp
              · intro pc hpc
                rw [List.mem_cons] at hpc
                cases hpc with
                | inl he => subst he; rfl
                | inr hmm =>
                  rw [List.mem_append] at hmm
                  cases hmm with
                  | inl h1 => exact hall1 pc h1
                  | inr h2 => exact hall2 pc h2
          · obtain ⟨d2, hd2, hall2⟩ := ih _ _ st' line' h
            refine ⟨(st.pages - 1, Cmd.text s' .body 12 margin st.y) :: d2, ?_, ?_⟩
            · rw [hd2, cmds_pagecheck, cmds_advance, cmds_push]
              simp
            · intro pc hpc
              rw [List.mem_cons] at hpc
              cases hpc with
              | inl he => subst he; rfl
              | inr hmm => exact hall2 pc hmm
      · exact ih _ st st' line' h

/-- The continuation after the break: all its draws are at the left
margin, and when the leftover phase-1 line is non-blank the first thing
drawn is that line at `y = imageBottom - 25`. -/
theorem p2Block_col (pr : Prims) (imageBottom : ℚ) (line : String) (rem : List String)
    (st st' : St) (h : p2Block pr imageBottom line rem st = .ok st') :
    (∃ d, st'.cmds = st.cmds ++ d ∧ ∀ pc ∈ d, Cmd.xPos pc.2 = margin) ∧
    (trimStr line ≠ "" → ∃ d, st'.cmds =
      st.cmds ++ (st.pages - 1, Cmd.text line .body 12 margin (qsub imageBottom 25)) :: d) := by
  rw [p2Block] at h
  simp only [Bind.bind, Except.bind] at h
  have hnext : ∀ stA : St, (match phase2 pr rem "" stA with
      | Except.error e => (Except.error e : Except String St)
      | Except.ok (st, line) =>
        if trimStr line ≠ "" then
          match drawRetry pr line with
          | Except.error e => Except.error e
          | Except.ok s' => Except.ok (advance (push st (.text s' .body 12 margin st.y)) 18)
        else Except.ok st) = .ok st' →
      ∃ d, st'.cmds = stA.cmds ++ d ∧ ∀ pc ∈ d, Cmd.xPos pc.2 = margin := by
    intro stA hh
    cases hp : phase2 pr rem "" stA with
    | error e => rw [hp] at hh; exact Except.noConfusion hh
    | ok r =>
      obtain ⟨st2, line2⟩ := r
      rw [hp] at hh
      dsimp only at hh
      obtain ⟨d1, hd1, hall1⟩ := phase2_col pr rem "" stA st2 line2 hp
      by_cases hl : trimStr line2 ≠ ""
      · rw [if_pos hl] at hh
        cases hdr : drawRetry pr line2 with
        | error e => rw [hdr] at hh; exact Except.noConfusion hh
        | ok s' =>
          rw [hdr] at hh
          cases hh
          refine ⟨d1 ++ [(st2.pages - 1, Cmd.text s' .body 12 margin st2.y)], ?_, ?_⟩
          · rw [cmds_advance, cmds_push, hd1, List.append_assoc]
          · intro pc hpc
            rw [List.mem_append] at hpc
            cases hpc with
            | inl h1 => exact hall1 pc h1
            | inr h2 => rw [List.mem_singleton] at h2; subst h2; rfl
      · rw [if_neg hl] at hh
        cases hh
        exact ⟨d1, hd1, hall1⟩
  by_cases hl : trimStr line ≠ ""
  · rw [if_pos hl] at h
    cases hdr : pr.draw line with
    | error e => rw [hdr] at h; exact Except.noConfusion h
    | ok u =>
      rw [hdr] at h
      obtain ⟨d, hd, hall⟩ := hnext _ h
      constructor
      · refine ⟨(st.pages - 1, Cmd.text line .body 12 margin (qsub imageBottom 25)) :: d, ?_, ?_⟩
        · rw [hd, cmds_advance, cmds_push]
          simp
        · intro pc hpc
          rw [List.mem_cons] at hpc
          cases hpc with
          | inl he => subst he; rfl
          | inr hm => exact hall pc hm
      · intro _
        exact ⟨d, by rw [hd, cmds_advance, cmds_push]; simp⟩
  · rw [if_neg hl] at h
    obtain ⟨d, hd, hall⟩ := hnext _ h
    exact ⟨⟨d, hd, hall⟩, fun hcon => absurd hcon hl⟩

/-- C5: in the side-by-side layout, with the image placed (`h1`) and
phase 1 ending in state `stA` (`h2`): (i) every phase-1 line is drawn in
the right column (`x = textX = image right edge + 30`) at a y at or
above the image-bottom cursor; (ii) the moment phase 1 reports the text
longer than the image, everything that follows is drawn at the left
margin (full content width), starting — when the leftover line is
non-blank — with that line at exactly `imageBottom - 25`; (iii) when the
text is shorter than the image the section's final cursor is the
minimum of the text cursor and the image bottom. -/
theorem C5_twoPhase (pr : Prims) (s : Sec) (st stI stA st' : St) (info : ImgInfo)
    (ty : ℚ) (line : String) (rem : List String) (longer : Bool)
    (h1 : addImageM pr s.imageBuffer s.imageCaption false
        (if qlt (qsub st.y margin) 250 then newPage st else st) = (stI, some info))
    (h2 : phase1 pr (qadd (qadd info.x info.w) 30) (qsub (qsub contentWidth info.w) 30)
        info.bottom (splitStr s.text ' ') "" info.y stI = .ok (stA, ty, line, rem, longer))
    (h3 : sideBySideM pr s st = .ok st')
    (hby : info.bottom ≤ info.y) :
    (∃ d, stA.cmds = stI.cmds ++ d ∧
        ∀ pc ∈ d, info.bottom ≤ Cmd.yPos pc.2 ∧
          Cmd.xPos pc.2 = qadd (qadd info.x info.w) 30) ∧
    (longer = true →
        (∃ d, st'.cmds = stA.cmds ++ d ∧ ∀ pc ∈ d, Cmd.xPos pc.2 = margin) ∧
        (trimStr line ≠ "" → ∃ d, st'.cmds = stA.cmds ++
          (stA.pages - 1, Cmd.text line .body 12 margin (qsub info.bottom 25)) :: d)) ∧
    (longer = false →
        st'.y = qmin (if trimStr line ≠ "" then qsub ty 18 else ty) info.bottom) := by
  rw [sideBySideM] at h3
  rw [h1] at h3
  dsimp only at h3
  rw [h2] at h3
  dsimp only at h3
  refine ⟨(phase1_cols pr _ _ info.bottom (splitStr s.text ' ') "" info.y stI stA ty line rem
    longer hby h2).1, ?_, ?_⟩
  · intro hlg
    subst hlg
    rw [p1Tail] at h3
    dsimp only at h3
    rw [if_pos rfl] at h3
    exact p2Block_col pr info.bottom line rem stA st' h3
  · intro hlg
    subst hlg
    rw [p1Tail] at h3
    dsimp only at h3
    rw [if_neg (fun hx => Bool.noConfusion hx)] at h3
    by_cases hl : trimStr line ≠ ""
    · rw [if_pos hl] at h3
      cases hD : pr.draw line with
      | error e => rw [hD] at h3; exact Except.noConfusion h3
      | ok u =>
        rw [hD] at h3
        cases h3
        rw [if_pos hl]
    · rw [if_neg hl] at h3
      cases h3
      rw [if_neg hl]

/-- A section with a decodable diagram and the one-word body "hi". -/
def c5sec : Sec := { text := "hi", imageBuffer := some [0] }

def c5img : ℕ × Cmd :=
  (0, Cmd.image (mkRat 50 1) (mkRat 486 1) (mkRat 256 1) (mkRat 256 1))

def c5txt : ℕ × Cmd :=
  (0, Cmd.text "hi " Font.body (mkRat 12 1) (mkRat 336 1) (mkRat 742 1))

/-- The state after the image of `c5sec` is placed from `st0`. -/
def c5stI : St := St.mk 1 [c5img] (mkRat 461 1)

/-- The final state of the side-by-side render of `c5sec` from `st0`. -/
def c5fin : St := St.mk 1 [c5img, c5txt] (mkRat 461 1)

def c5info : ImgInfo :=
  ImgInfo.mk (mkRat 256 1) (mkRat 256 1) (mkRat 50 1) (mkRat 742 1) (mkRat 461 1)

/-- Witness for C5 at a concrete run: the 100 × 100 diagram with body
"hi" — the single line sits in the right column and the final cursor is
`min(textY, imageBottom) = 461`. -/
theorem C5_twoPhase_witness :
    (∃ d, c5stI.cmds = c5stI.cmds ++ d ∧
        ∀ pc ∈ d, c5info.bottom ≤ Cmd.yPos pc.2 ∧
          Cmd.xPos pc.2 = qadd (qadd c5info.x c5info.w) 30) ∧
    (false = true →
        (∃ d, c5fin.cmds = c5stI.cmds ++ d ∧ ∀ pc ∈ d, Cmd.xPos pc.2 = margin) ∧
        (trimStr "hi " ≠ "" → ∃ d, c5fin.cmds = c5stI.cmds ++
          (c5stI.pages - 1, Cmd.text "hi " .body 12 margin (qsub c5info.bottom 25)) :: d)) ∧
    (false = false →
        c5fin.y = qmin (if trimStr "hi " ≠ "" then qsub (mkRat 742 1) 18 else mkRat 742 1)
          c5info.bottom) :=
  C5_twoPhase okPr c5sec st0 c5stI c5stI c5fin c5info (mkRat 742 1) "hi " [] false
    (by decide) (by decide) (by decide) (by decide)

/-! ## C7 — the recovery cascade never loses the document -/

theorem pages_push (st : St) (c : Cmd) : (push st c).pages = st.pages := rfl

theorem pages_advance (st : St) (d : ℚ) : (advance st d).pages = st.pages := rfl

theorem pages_pagecheck (st : St) : st.pages ≤ (pagecheck st).pages := by
  rw [pagecheck]
  split
  · exact Nat.le_succ _
  · exact le_refl _

theorem pages_newPage (st : St) : st.pages ≤ (newPage st).pages := Nat.le_succ _

theorem procWords_pg (pr : Prims) (c : TCtx) :
    ∀ words line st, st.pages ≤ (procWords pr c words line st).1.pages := by
  intro words
  induction words with
  | nil => intro line st; rw [procWords]
  | cons w rest ih =>
    intro line st
    rw [procWords]
    by_cases hb : trimStr w = ""
    · rw [if_pos hb]; exact ih line st
    · rw [if_neg hb]
      dsimp only
      split
      · cases drawRetry pr line with
        | error e => exact ih line st
        | ok s' =>
          exact le_trans
            (pages_pagecheck (advance (push st (.text s' c.font c.size (qadd margin c.indent) st.y)) (lineAdvance c.size)))
            (ih (w ++ " ") (pagecheck (advance (push st (.text s' c.font c.size (qadd margin c.indent) st.y)) (lineAdvance c.size))))
      · exact ih (line ++ w ++ " ") st

theorem procPara_pg (pr : Prims) (c : TCtx) (par : String) (st st' : St)
    (h : procPara pr c par st = .ok st') : st.pages ≤ st'.pages := by
  rw [procPara] at h
  by_cases hp : trimStr par = ""
  · rw [if_pos hp] at h
    cases h
    exact le_refl _
  · rw [if_neg hp] at h
    dsimp only at h
    have h1 := procWords_pg pr c (splitStr par ' ') "" st
    cases hP : procWords pr c (splitStr par ' ') "" st with
    | mk st1 line =>
      rw [hP] at h h1
      dsimp only at h h1
      by_cases hl : trimStr line = ""
      · rw [if_pos hl] at h
        cases h
        exact h1
      · rw [if_neg hl] at h
        cases hdr : drawRetry pr line with
        | error e => rw [hdr] at h; exact Except.noConfusion h
        | ok s' =>
          rw [hdr] at h
          cases h
          exact h1

theorem procParas_pg (pr : Prims) (c : TCtx) :
    ∀ paras st st', procParas pr c paras st = .ok st' → st.pages ≤ st'.pages := by
  intro paras
  induction paras with
  | nil =>
    intro st st' h
    rw [procParas] at h
    cases h
    exact le_refl _
  | cons p tail ih =>
    intro st st' h
    cases tail with
    | nil =>
      rw [procParas] at h
      exact procPara_pg pr c p st st' h
    | cons q rest =>
      rw [procParas] at h
      cases hp : procPara pr c p st with
      | error e => rw [hp] at h; exact Except.noConfusion h
      | ok st1 =>
        rw [hp] at h
        exact le_trans (procPara_pg pr c p st st1 hp)
          (ih (advance st1 (qmul c.size (mkRat 4 5))) st' h)

theorem addTextM_pg (pr : Prims) (c : TCtx) (text : String) (st st' : St)
    (h : addTextM pr c text st = .ok st') : st.pages ≤ st'.pages := by
  rw [addTextM] at h
  by_cases ht : text = ""
  · rw [if_pos ht] at h
    cases h
    exact le_refl _
  · rw [if_neg ht] at h
    dsimp only at h
    cases hp : procParas pr c (splitStr (spaceNonAscii (String.mk (spaceBeforeNL text.toList))) '\n') st with
    | error e => rw [hp] at h; exact Except.noConfusion h
    | ok st1 =>
      rw [hp] at h
      cases h
      exact le_trans (procParas_pg pr c _ st st1 hp)
        (pages_pagecheck (advance st1 (qmul c.size (mkRat 1 2))))

theorem pages_pagecheck_of (st X : St) (h : st.pages ≤ X.pages) :
    st.pages ≤ (pagecheck X).pages := le_trans h (pages_pagecheck X)

theorem addImageM_pg (pr : Prims) (buf : Option Buffer) (caption : String)
    (isFl : Bool) (st : St) : st.pages ≤ (addImageM pr buf caption isFl st).1.pages := by
  rw [addImageM.eq_def]
  cases buf with
  | none => exact le_refl _
  | some b =>
    dsimp only
    cases hdec : pr.decode b with
    | none => exact le_refl _
    | some wh =>
      obtain ⟨w, h⟩ := wh
      dsimp only
      generalize hg : (if qlt (qsub st.y (qadd (if isFl = true then flowDims w h else diagDims w h).2
        (if caption ≠ "" then (45 : ℚ) else 20))) margin = true then newPage st else st) = st1
      have h1 : st.pages ≤ st1.pages := by
        rw [← hg]
        by_cases hq : qlt (qsub st.y (qadd (if isFl = true then flowDims w h else diagDims w h).2
            (if caption ≠ "" then (45 : ℚ) else 20))) margin = true
        · rw [if_pos hq]
          exact Nat.le_succ _
        · rw [if_neg hq]
      by_cases hc : caption ≠ ""
      · rw [if_pos hc]
        cases pr.draw ("Figure: " ++ caption) with
        | error e => exact h1
        | ok u =>
          dsimp only
          exact pages_pagecheck_of st _ h1
      · rw [if_neg hc]
        dsimp only
        exact pages_pagecheck_of st _ h1

theorem p1Parts_pg (pr : Prims) (textX imageBottom : ℚ) :
    ∀ parts first ty st st' ty' lg,
      p1Parts pr textX imageBottom parts first ty st = .ok (st', ty', lg) →
      st.pages ≤ st'.pages := by
  intro parts
  induction parts with
  | nil =>
    intro first ty st st' ty' lg h
    rw [p1Parts] at h
    cases h
    exact le_refl _
  | cons p rest ih =>
    intro first ty st st' ty' lg h
    cases first with
    | true =>
      rw [p1Parts] at h
      by_cases hp : p ≠ ""
      · rw [if_pos hp] at h
        cases hD : pr.draw p with
        | error e => rw [hD] at h; exact Except.noConfusion h
        | ok u =>
          rw [hD] at h
          dsimp only at h
          split at h
          · cases h; exact le_refl _
          · exact ih false (qsub ty 18) (push st (.text p .body 12 textX ty)) st' ty' lg h
      · rw [if_neg hp] at h
        exact ih false ty st st' ty' lg h
    | false =>
      rw [p1Parts] at h
      dsimp only at h
      split at h
      · cases h; exact le_refl _
      · by_cases hp : p ≠ ""
        · rw [if_pos hp] at h
          cases hD : pr.draw p with
          | error e => rw [hD] at h; exact Except.noConfusion h
          | ok u =>
            rw [hD] at h
            dsimp only at h
            split at h
            · cases h; exact le_refl _
            · exact ih false (qsub (qsub ty 18) 18)
                (push st (.text p .body 12 textX (qsub ty 18))) st' ty' lg h
        · rw [if_neg hp] at h
          exact ih false (qsub ty 18) st st' ty' lg h

theorem phase1_pg (pr : Prims) (textX textWidth imageBottom : ℚ) :
    ∀ words line ty st st' ty' line' rem lg,
      phase1 pr textX textWidth imageBottom words line ty st =
        .ok (st', ty', line', rem, lg) →
      st.pages ≤ st'.pages := by
  intro words
  induction words with
  | nil =>
    intro line ty st st' ty' line' rem lg h
    rw [phase1] at h
    cases h
    exact le_refl _
  | cons w rest ih =>
    intro line ty st st' ty' line' rem lg h
    rw [phase1] at h
    dsimp only at h
    split at h
    · cases hD : pr.draw line with
      | error e => rw [hD] at h; exact Except.noConfusion h
      | ok u =>
        rw [hD] at h
        dsimp only at h
        split at h
        · cases h; exact le_refl _
        · split at h
          · cases hP : p1Parts pr textX imageBottom (splitStr w '\n') true (qsub ty 18)
                (push st (.text line .body 12 textX ty)) with
            | error e => rw [hP] at h; exact Except.noConfusion h
            | ok r =>
              obtain ⟨st2, ty2, lg2⟩ := r
              rw [hP] at h
              dsimp only at h
              have hpg := p1Parts_pg pr textX imageBottom (splitStr w '\n') true (qsub ty 18)
                (push st (.text line .body 12 textX ty)) st2 ty2 lg2 hP
              split at h
              · cases h; exact hpg
              · exact le_trans hpg (ih "" ty2 st2 st' ty' line' rem lg h)
          · exact ih (if endsW w "\n" then "" else w ++ " ") (qsub ty 18)
              (push st (.text line .body 12 textX ty)) st' ty' line' rem lg h
    · exact ih (cleanRN (line ++ cleanRN w ++ " ")) ty st st' ty' line' rem lg h

theorem p2Parts_pg (pr : Prims) :
    ∀ parts first st st', p2Parts pr parts first st = .ok st' → st.pages ≤ st'.pages := by
  intro parts
  induction parts with
  | nil =>
    intro first st st' h
    rw [p2Parts] at h
    cases h
    exact le_refl _
  | cons p rest ih =>
    intro first st st' h
    rw [p2Parts] at h
    have hstep : st.pages ≤ (if first then st else pagecheck (advance st 18)).pages := by
      split
      · exact le_refl _
      · exact pages_pagecheck_of st (advance st 18) (le_refl _)
    by_cases hp : p ≠ ""
    · rw [if_pos hp] at h
      cases hdr : drawRetry pr p with
      | error e => rw [hdr] at h; exact Except.noConfusion h
      | ok s' =>
        rw [hdr] at h
        exact le_trans hstep
          (le_trans
            (pages_pagecheck_of _
              (advance (push (if first then st else pagecheck (advance st 18))
                (.text s' .body 12 margin (if first then st else pagecheck (advance st 18)).y)) 18)
              (le_refl _))
            (ih false
              (pagecheck (advance (push (if first then st else pagecheck (advance st 18))
                (.text s' .body 12 margin (if first then st else pagecheck (advance st 18)).y)) 18))
              st' h))
    · rw [if_neg hp] at h
      exact le_trans hstep (ih false (if first then st else pagecheck (advance st 18)) st' h)

theorem phase2_pg (pr : Prims) :
    ∀ words line st st' line', phase2 pr words line st = .ok (st', line') →
      st.pages ≤ st'.pages := by
  intro words
  induction words with
  | nil =>
    intro line st st' line' h
    rw [phase2] at h
    cases h
    exact le_refl _
  | cons w rest ih =>
    intro line st st' line' h
    rw [phase2] at h
    cases hm : pr.width (line ++ w ++ " ") 12 with
    | error e => rw [hm] at h; exact Except.noConfusion h
    | ok lw =>
      rw [hm] at h
      dsimp only at h
      split at h
      · cases hdr : drawRetry pr line with
        | error e => rw [hdr] at h; exact Except.noConfusion h
        | ok s' =>
          rw [hdr] at h
          dsimp only at h
          split at h
          · cases hp2 : p2Parts pr (splitStr w '\n') true
                (pagecheck (advance (push st (.text s' .body 12 margin st.y)) 18)) with
            | error e => rw [hp2] at h; exact Except.noConfusion h
            | ok st2 =>
              rw [hp2] at h
              exact le_trans
                (pages_pagecheck_of st
                  (advance (push st (.text s' .body 12 margin st.y)) 18) (le_refl _))
                (le_trans
                  (p2Parts_pg pr (splitStr w '\n') true
                    (pagecheck (advance (push st (.text s' .body 12 margin st.y)) 18)) st2 hp2)
                  (ih "" st2 st' line' h))
          · exact le_trans
              (pages_pagecheck_of st
                (advance (push st (.text s' .body 12 margin st.y)) 18) (le_refl _))
              (ih (if endsW w "\n" then "" else w ++ " ")
                (pagecheck (advance (push st (.text s' .body 12 margin st.y)) 18)) st' line' h)
      · exact ih (line ++ w ++ " ") st st' line' h

theorem p2Block_pg (pr : Prims) (imageBottom : ℚ) (line : String) (rem : List String)
    (st st' : St) (h : p2Block pr imageBottom line rem st = .ok st') :
    st.pages ≤ st'.pages := by
  rw [p2Block] at h
  simp only [Bind.bind, Except.bind] at h
  have hnext : ∀ stA : St, st.pages ≤ stA.pages →
      (match phase2 pr rem "" stA with
        | Except.error e => (Except.error e : Except String St)
        | Except.ok (st, line) =>
          if trimStr line ≠ "" then
            match drawRetry pr line with
            | Except.error e => Except.error e
            | Except.ok s' => Except.ok (advance (push st (.text s' .body 12 margin st.y)) 18)
          else Except.ok st) = .ok st' → st.pages ≤ st'.pages := by
    intro stA hpA hh
    cases hp : phase2 pr rem "" stA with
    | error e => rw [hp] at hh; exact Except.noConfusion hh
    | ok r =>
      obtain ⟨st2, line2⟩ := r
      rw [hp] at hh
      dsimp only at hh
      have h2 := le_trans hpA (phase2_pg pr rem "" stA st2 line2 hp)
      by_cases hl : trimStr line2 ≠ ""
      · rw [if_pos hl] at hh
        cases hdr : drawRetry pr line2 with
        | error e => rw [hdr] at hh; exact Except.noConfusion hh
        | ok s' =>
          rw [hdr] at hh
          cases hh
          exact h2
      · rw [if_neg hl] at hh
        cases hh
        exact h2
  by_cases hl : trimStr line ≠ ""
  · rw [if_pos hl] at h
    cases hdr : pr.draw line with
    | error e => rw [hdr] at h; exact Except.noConfusion h
    | ok u =>
      rw [hdr] at h
      exact hnext (advance (push { st with y := qsub imageBottom 25 }
        (.text line .body 12 margin (qsub imageBottom 25))) 18) (le_refl _) h
  · rw [if_neg hl] at h
    exact hnext { st with y := qsub imageBottom 25 } (le_refl _) h

theorem p1Tail_pg (pr : Prims) (textX imageBottom : ℚ) (st : St) (ty : ℚ) (line : String)
    (rem : List String) (lg : Bool) (st' : St)
    (h : p1Tail pr textX imageBottom (st, ty, line, rem, lg) = .ok st') :
    st.pages ≤ st'.pages := by
  rw [p1Tail] at h
  dsimp only at h
  cases lg with
  | true =>
    rw [if_pos rfl] at h
    exact p2Block_pg pr imageBottom line rem st st' h
  | false =>
    rw [if_neg (fun hx => Bool.noConfusion hx)] at h
    by_cases hl : trimStr line ≠ ""
    · rw [if_pos hl] at h
      cases hdr : pr.draw line with
      | error e => rw [hdr] at h; exact Except.noConfusion h
      | ok u =>
        rw [hdr] at h
        cases h
        exact le_refl _
    · rw [if_neg hl] at h
      cases h
      exact le_refl _

theorem sideBySideM_pg (pr : Prims) (s : Sec) (st st' : St)
    (h : sideBySideM pr s st = .ok st') : st.pages ≤ st'.pages := by
  rw [sideBySideM] at h
  have hstep : st.pages ≤ (if qlt (qsub st.y margin) 250 = true then newPage st else st).pages := by
    split
    · exact Nat.le_succ _
    · exact le_refl _
  set stA := if qlt (qsub st.y margin) 250 = true then newPage st else st with hstA
  have h1 := addImageM_pg pr s.imageBuffer s.imageCaption false stA
  cases hP : addImageM pr s.imageBuffer s.imageCaption false stA with
  | mk stB res =>
    rw [hP] at h h1
    dsimp only at h h1
    cases res with
    | none =>
      cases h
      exact le_trans hstep h1
    | some info =>
      dsimp only at h
      cases hp : phase1 pr (qadd (qadd info.x info.w) 30)
          (qsub (qsub contentWidth info.w) 30) info.bottom
          (splitStr s.text ' ') "" info.y stB with
      | error e => rw [hp] at h; exact Except.noConfusion h
      | ok r =>
        rw [hp] at h
        obtain ⟨st2, ty2, line2, rem2, lg2⟩ := r
        exact le_trans hstep (le_trans h1
          (le_trans (phase1_pg pr _ _ info.bottom (splitStr s.text ' ') "" info.y stB st2
            ty2 line2 rem2 lg2 hp)
            (p1Tail_pg pr _ info.bottom st2 ty2 line2 rem2 lg2 st' h)))

theorem flowBranch_pg (pr : Prims) (s : Sec) (st st' : St)
    (h : flowBranch pr s st = .ok st') : st.pages ≤ st'.pages := by
  rw [flowBranch] at h
  simp only [Bind.bind, Except.bind, pureE_eq] at h
  by_cases ht : s.text ≠ ""
  · rw [if_pos ht] at h
    cases hA : addTextM pr ⟨.body, 12, 0, contentWidth⟩ s.text st with
    | error e => rw [hA] at h; exact Except.noConfusion h
    | ok stT =>
      rw [hA] at h
      dsimp only at h
      have hpA : st.pages ≤ (advance stT 20).pages := addTextM_pg pr _ s.text st stT hA
      cases hsb : s.imageBuffer with
      | some b =>
        rw [hsb] at h
        dsimp only at h
        by_cases hlen : b.length > 0
        · rw [if_pos hlen] at h
          cases h
          exact le_trans hpA (addImageM_pg pr (some b) s.imageCaption true (advance stT 20))
        · rw [if_neg hlen] at h
          cases hA2 : addTextM pr ⟨.italic, 12, 0, contentWidth⟩
              "(Flowchart visualization unavailable)" (advance stT 20) with
          | error e => rw [hA2] at h; exact Except.noConfusion h
          | ok stP =>
            rw [hA2] at h
            cases h
            exact le_trans hpA (addTextM_pg pr _ _ _ stP hA2)
      | none =>
        rw [hsb] at h
        dsimp only at h
        cases hA2 : addTextM pr ⟨.italic, 12, 0, contentWidth⟩
            "(Flowchart visualization unavailable)" (advance stT 20) with
        | error e => rw [hA2] at h; exact Except.noConfusion h
        | ok stP =>
          rw [hA2] at h
          cases h
          exact le_trans hpA (addTextM_pg pr _ _ _ stP hA2)
  · rw [if_neg ht] at h
    cases hsb : s.imageBuffer with
    | some b =>
      rw [hsb] at h
      dsimp only at h
      by_cases hlen : b.length > 0
      · rw [if_pos hlen] at h
        cases h
        exact addImageM_pg pr (some b) s.imageCaption true st
      · rw [if_neg hlen] at h
        cases hA2 : addTextM pr ⟨.italic, 12, 0, contentWidth⟩
            "(Flowchart visualization unavailable)" st with
        | error e => rw [hA2] at h; exact Except.noConfusion h
        | ok stP =>
          rw [hA2] at h
          cases h
          exact addTextM_pg pr _ _ st stP hA2
    | none =>
      rw [hsb] at h
      dsimp only at h
      cases hA2 : addTextM pr ⟨.italic, 12, 0, contentWidth⟩
          "(Flowchart visualization unavailable)" st with
      | error e => rw [hA2] at h; exact Except.noConfusion h
      | ok stP =>
        rw [hA2] at h
        cases h
        exact addTextM_pg pr _ _ st stP hA2

theorem headingM_pg (pr : Prims) (s : Sec) (st st' : St)
    (h : headingM pr s st = .ok st') : st.pages ≤ st'.pages := by
  rw [headingM] at h
  by_cases hh : s.heading ≠ ""
  · rw [if_pos hh] at h
    cases hA : addTextM pr ⟨.bold, 18, 0, contentWidth⟩ s.heading st with
    | error e => rw [hA] at h; exact Except.noConfusion h
    | ok stT =>
      rw [hA] at h
      cases h
      exact addTextM_pg pr _ s.heading st stT hA
  · rw [if_neg hh] at h
    cases h
    exact le_refl _

theorem renderSec_pg (pr : Prims) (st : St) (s : Sec) (st' : St)
    (h : renderSec pr st s = .ok st') : st.pages ≤ st'.pages := by
  rw [renderSec] at h
  simp only [Bind.bind, Except.bind, pureE_eq] at h
  cases hH : headingM pr s st with
  | error e => rw [hH] at h; exact Except.noConfusion h
  | ok stH =>
    rw [hH] at h
    dsimp only at h
    have hpH : st.pages ≤ stH.pages := headingM_pg pr s st stH hH
    by_cases hL : (s.layout == "text-with-image" && s.imageBuffer.isSome) = true
    · rw [if_pos hL] at h
      by_cases hF : s.isFlowchart = true
      · rw [if_pos hF] at h
        cases hB : flowBranch pr s stH with
        | error e => rw [hB] at h; exact Except.noConfusion h
        | ok stM =>
          rw [hB] at h
          cases h
          exact pages_pagecheck_of st _ (le_trans hpH (flowBranch_pg pr s stH stM hB))
      · rw [if_neg hF] at h
        by_cases hT : s.text ≠ ""
        · rw [if_pos hT] at h
          cases hB : sideBySideM pr s stH with
          | error e => rw [hB] at h; exact Except.noConfusion h
          | ok stM =>
            rw [hB] at h
            cases h
            exact pages_pagecheck_of st _ (le_trans hpH (sideBySideM_pg pr s stH stM hB))
        · rw [if_neg hT] at h
          cases h
          exact pages_pagecheck_of st _
            (le_trans hpH (addImageM_pg pr s.imageBuffer s.imageCaption false stH))
    · rw [if_neg hL] at h
      by_cases hT : s.text ≠ ""
      · rw [if_pos hT] at h
        cases hB : addTextM pr ⟨.body, 12, 0, contentWidth⟩ s.text stH with
        | error e => rw [hB] at h; exact Except.noConfusion h
        | ok stM =>
          rw [hB] at h
          cases h
          exact pages_pagecheck_of st _ (le_trans hpH (addTextM_pg pr _ s.text stH stM hB))
      · rw [if_neg hT] at h
        cases h
        exact pages_pagecheck_of st _ hpH

theorem foldSecs_pg (pr : Prims) :
    ∀ secs (st st' : St), List.foldlM (renderSec pr) st secs = .ok st' →
      st.pages ≤ st'.pages := by
  intro secs
  induction secs with
  | nil =>
    intro st st' h
    rw [List.foldlM] at h
    cases h
    exact le_refl _
  | cons s rest ih =>
    intro st st' h
    rw [List.foldlM] at h
    simp only [Bind.bind, Except.bind] at h
    cases hr : renderSec pr st s with
    | error e => rw [hr] at h; exact Except.noConfusion h
    | ok st1 =>
      rw [hr] at h
      exact le_trans (renderSec_pg pr st s st1 hr) (ih st1 st' h)

/-- Every successful render of `generatePDF` has at least one page (the
first page is added up front and pages are never removed). -/
theorem generatePDFM_pg (pr : Prims) (c : Content) (st' : St)
    (h : generatePDFM pr c = .ok st') : 1 ≤ st'.pages := by
  rw [generatePDFM] at h
  simp only [Bind.bind, Except.bind, pureE_eq] at h
  by_cases ht : c.title ≠ ""
  · rw [if_pos ht] at h
    cases hA : addTextM pr ⟨.bold, 24, 0, contentWidth⟩ c.title ⟨1, [], topY⟩ with
    | error e => rw [hA] at h; exact Except.noConfusion h
    | ok stT =>
      rw [hA] at h
      dsimp only at h
      exact le_trans (addTextM_pg pr _ c.title ⟨1, [], topY⟩ stT hA)
        (foldSecs_pg pr c.sections (advance stT 30) st' h)
  · rw [if_neg ht] at h
    exact foldSecs_pg pr c.sections ⟨1, [], topY⟩ st' h

theorem lastResort_pages (pr : Prims) (e : String) (st : St)
    (h : lastResort pr e = .ok st) : 1 ≤ st.pages := by
  rw [lastResort] at h
  cases h1 : pr.draw "Error Generating PDF" with
  | error e2 => rw [h1] at h; exact Except.noConfusion h
  | ok u =>
    rw [h1] at h
    dsimp only at h
    cases h2 : pr.draw ("Error: " ++ e) with
    | error e2 => rw [h2] at h; exact Except.noConfusion h
    | ok u2 =>
      rw [h2] at h
      cases h
      exact le_refl _

theorem errorChain_ok_pages (pr : Prims) (nd : NoteData) (e : String) (st : St)
    (h : errorChain pr nd e = .ok st) : 1 ≤ st.pages := by
  rw [errorChain] at h
  cases hE : generatePDFM pr (errorContent nd e) with
  | ok stE =>
    rw [hE] at h
    cases h
    exact generatePDFM_pg pr _ _ hE
  | error e2 =>
    rw [hE] at h
    cases hL : lastResort pr e with
    | ok stL =>
      rw [hL] at h
      cases h
      exact lastResort_pages pr e _ hL
    | error e3 => rw [hL] at h; exact Except.noConfusion h

theorem errorChain_err (pr : Prims) (nd : NoteData) (e e' : String)
    (h : errorChain pr nd e = .error e') :
    e' = e ∧ (∃ e2, generatePDFM pr (errorContent nd e) = .error e2) ∧
      (∃ e3, lastResort pr e = .error e3) := by
  rw [errorChain] at h
  cases hE : generatePDFM pr (errorContent nd e) with
  | ok stE => rw [hE] at h; exact Except.noConfusion h
  | error e2 =>
    rw [hE] at h
    cases hL : lastResort pr e with
    | ok stL => rw [hL] at h; exact Except.noConfusion h
    | error e3 =>
      rw [hL] at h
      cases h
      exact ⟨rfl, ⟨e2, rfl⟩, ⟨e3, rfl⟩⟩

/-- C7: the assembler always hands back a document with at least one
page whenever it returns at all, and when it does re-throw, the error it
throws is exactly the original rendering error, and both the error-PDF
render and the last-resort minimal document must themselves have failed
(so the original error propagates only when even the last resort cannot
be built). -/
theorem C7_neverThrows (pr : Prims) (nd : NoteData) (ds : List DiagR) (fs : List FlowR)
    (plan : Option Plan) :
    (∀ st, gdfcM pr nd ds fs plan = .ok st → 1 ≤ st.pages) ∧
    (∀ e, gdfcM pr nd ds fs plan = .error e →
      generatePDFM pr (buildContent nd ds fs plan) = .error e ∧
      (∃ e2, generatePDFM pr (errorContent nd e) = .error e2) ∧
      (∃ e3, lastResort pr e = .error e3)) := by
  constructor
  · intro st hok
    rw [gdfcM] at hok
    cases hm : generatePDFM pr (buildContent nd ds fs plan) with
    | ok stM =>
      rw [hm] at hok
      cases hok
      exact generatePDFM_pg pr _ _ hm
    | error e0 =>
      rw [hm] at hok
      dsimp only at hok
      split at hok
      · cases hs : generatePDFM pr (simplifiedContent nd ds fs) with
        | ok stS =>
          rw [hs] at hok
          cases hok
          exact generatePDFM_pg pr _ _ hs
        | error e1 =>
          rw [hs] at hok
          exact errorChain_ok_pages pr nd e0 st hok
      · exact errorChain_ok_pages pr nd e0 st hok
  · intro e herr
    rw [gdfcM] at herr
    cases hm : generatePDFM pr (buildContent nd ds fs plan) with
    | ok stM => rw [hm] at herr; exact Except.noConfusion herr
    | error e0 =>
      rw [hm] at herr
      dsimp only at herr
      split at herr
      · cases hs : generatePDFM pr (simplifiedContent nd ds fs) with
        | ok stS => rw [hs] at herr; exact Except.noConfusion herr
        | error e1 =>
          rw [hs] at herr
          obtain ⟨he, hx⟩ := errorChain_err pr nd e0 e herr
          subst he
          exact ⟨rfl, hx⟩
      · obtain ⟨he, hx⟩ := errorChain_err pr nd e0 e herr
        subst he
        exact ⟨rfl, hx⟩

/-- Primitives whose every `drawText` throws: even the last-resort
document cannot be built. -/
def failPr : Prims :=
  { width := fun _ _ => .ok 0, draw := fun _ => .error "boom", decode := fun _ => none }

/-- Witness for C7: with primitives whose draws always throw, the
assembler re-throws exactly the original error, and both fallback
documents indeed failed. -/
theorem C7_neverThrows_witness :
    generatePDFM failPr (buildContent (NoteData.mk "" []) [] [] none) = .error "boom" ∧
    (∃ e2, generatePDFM failPr (errorContent (NoteData.mk "" []) "boom") = .error e2) ∧
    (∃ e3, lastResort failPr "boom" = .error e3) :=
  (C7_neverThrows failPr (NoteData.mk "" []) [] [] none).2 "boom" (by decide)

/-! ## C1 — conservation of visuals -/

theorem keyMem_iff (k : VKey) : ∀ l : List VKey, keyMem k l = true ↔ k ∈ l := by
  intro l
  induction l with
  | nil => simp [keyMem]
  | cons a t ih =>
    rw [keyMem, Bool.or_eq_true, ih, List.mem_cons]
    constructor
    · rintro (h | h)
      · exact Or.inl (eq_of_beq h).symm
      · exact Or.inr h
    · rintro (h | h)
      · exact Or.inl (by rw [h]; exact beq_self_eq_true a)
      · exact Or.inr h

theorem scanFlows_fresh (used : List VKey) (sn sc : String) (strat : ℕ) :
    ∀ fs i j nm b, scanFlows used sn sc strat i fs = some (j, nm, b) →
      keyMem (true, j) used = false := by
  intro fs
  induction fs with
  | nil => intro i j nm b h; rw [scanFlows] at h; exact Option.noConfusion h
  | cons f rest ih =>
    intro i j nm b h
    rw [scanFlows] at h
    cases hb : f.buffer with
    | none => rw [hb] at h; exact ih (i + 1) j nm b h
    | some bb =>
      rw [hb] at h
      dsimp only at h
      by_cases hc : (!keyMem (true, i) used && stratHit sn sc (lowerStr f.name) strat) = true
      · rw [if_pos hc] at h
        cases h
        rw [Bool.and_eq_true] at hc
        simpa using hc.1
      · rw [if_neg hc] at h
        exact ih (i + 1) j nm b h

theorem findFlow_fresh (used : List VKey) (sn sc : String) (fs : List FlowR)
    (j : ℕ) (nm : String) (b : Buffer) (h : findFlow used sn sc fs = some (j, nm, b)) :
    keyMem (true, j) used = false := by
  rw [findFlow] at h
  cases h0 : scanFlows used sn sc 0 0 fs with
  | some r =>
    obtain ⟨a, c, d⟩ := r
    rw [h0] at h
    cases h
    exact scanFlows_fresh used sn sc 0 fs 0 j nm b h0
  | none =>
    rw [h0] at h
    cases h1 : scanFlows used sn sc 1 0 fs with
    | some r =>
      obtain ⟨a, c, d⟩ := r
      rw [h1] at h
      cases h
      exact scanFlows_fresh used sn sc 1 fs 0 j nm b h1
    | none =>
      rw [h1] at h
      cases h2 : scanFlows used sn sc 2 0 fs with
      | some r =>
        obtain ⟨a, c, d⟩ := r
        rw [h2] at h
        cases h
        exact scanFlows_fresh used sn sc 2 fs 0 j nm b h2
      | none =>
        rw [h2] at h
        cases h3 : scanFlows used sn sc 3 0 fs with
        | some r =>
          obtain ⟨a, c, d⟩ := r
          rw [h3] at h
          cases h
          exact scanFlows_fresh used sn sc 3 fs 0 j nm b h3
        | none =>
          rw [h3] at h
          exact scanFlows_fresh used sn sc 4 fs 0 j nm b h

theorem scanDiagMatch_fresh (used : List VKey) (concepts : List String)
    (sn capRaw : String) :
    ∀ ds d j b cn, scanDiagMatch used concepts sn capRaw d ds = some (j, b, cn) →
      keyMem (false, j) used = false := by
  intro ds
  induction ds with
  | nil => intro d j b cn h; rw [scanDiagMatch] at h; exact Option.noConfusion h
  | cons g rest ih =>
    intro d j b cn h
    rw [scanDiagMatch] at h
    cases hb : g.buffer with
    | none => rw [hb] at h; exact ih (d + 1) j b cn h
    | some bb =>
      rw [hb] at h
      dsimp only at h
      by_cases hk : (!keyMem (false, d) used) = true
      · rw [if_pos hk] at h
        split at h
        · cases h
          simpa using hk
        · exact ih (d + 1) j b cn h
      · rw [if_neg hk] at h
        exact ih (d + 1) j b cn h

theorem scanAnyFlow_fresh (used : List VKey) :
    ∀ fs i j nm b, scanAnyFlow used i fs = some (j, nm, b) →
      keyMem (true, j) used = false := by
  intro fs
  induction fs with
  | nil => intro i j nm b h; rw [scanAnyFlow] at h; exact Option.noConfusion h
  | cons f rest ih =>
    intro i j nm b h
    rw [scanAnyFlow] at h
    cases hb : f.buffer with
    | none => rw [hb] at h; exact ih (i + 1) j nm b h
    | some bb =>
      rw [hb] at h
      dsimp only at h
      by_cases hk : (!keyMem (true, i) used) = true
      · rw [if_pos hk] at h
        cases h
        simpa using hk
      · rw [if_neg hk] at h
        exact ih (i + 1) j nm b h

theorem scanAnyDiag_fresh (used : List VKey) (concepts : List String) :
    ∀ ds i j b cn, scanAnyDiag used concepts i ds = some (j, b, cn) →
      keyMem (false, j) used = false := by
  intro ds
  induction ds with
  | nil => intro i j b cn h; rw [scanAnyDiag] at h; exact Option.noConfusion h
  | cons g rest ih =>
    intro i j b cn h
    rw [scanAnyDiag] at h
    cases hb : g.buffer with
    | none => rw [hb] at h; exact ih (i + 1) j b cn h
    | some bb =>
      rw [hb] at h
      dsimp only at h
      by_cases hk : (!keyMem (false, i) used) = true
      · rw [if_pos hk] at h
        cases h
        simpa using hk
      · rw [if_neg hk] at h
        exact ih (i + 1) j b cn h

theorem pickVis_fresh (fs : List FlowR) (ds : List DiagR) (concepts : List String)
    (ps : PlanSec) (used : List VKey) (k : VKey) (b : Buffer) (cap : String) (isFl : Bool)
    (h : pickVis fs ds concepts ps used = some (k, b, cap, isFl)) :
    keyMem k used = false := by
  rw [pickVis] at h
  cases hF : findFlow used (lowerStr ps.heading) (lowerStr ps.imageCaption) fs with
  | some r =>
    obtain ⟨i, nm, bb⟩ := r
    rw [hF] at h
    cases h
    exact findFlow_fresh used _ _ fs i _ _ hF
  | none =>
    rw [hF] at h
    cases hD : scanDiagMatch used concepts (lowerStr ps.heading) ps.imageCaption 0 ds with
    | some r =>
      obtain ⟨d, bb, cn⟩ := r
      rw [hD] at h
      cases h
      exact scanDiagMatch_fresh used concepts _ _ ds 0 d _ _ hD
    | none =>
      rw [hD] at h
      cases hA : scanAnyFlow used 0 fs with
      | some r =>
        obtain ⟨i, nm, bb⟩ := r
        rw [hA] at h
        cases h
        exact scanAnyFlow_fresh used fs 0 i _ _ hA
      | none =>
        rw [hA] at h
        cases hG : scanAnyDiag used concepts 0 ds with
        | some r =>
          obtain ⟨i, bb, cn⟩ := r
          rw [hG] at h
          cases h
          exact scanAnyDiag_fresh used concepts ds 0 i _ _ hG
        | none => rw [hG] at h; exact Option.noConfusion h

theorem placedCount_nil : placedCount [] = 0 := rfl

theorem placedCount_cons (s : Sec) (l : List Sec) :
    placedCount (s :: l) = placedCount l + (if s.imageBuffer.isSome then 1 else 0) :=
  List.countP_cons _ _ _

theorem placedCount_append (l1 l2 : List Sec) :
    placedCount (l1 ++ l2) = placedCount l1 + placedCount l2 :=
  List.countP_append _ _ _

/-- The plan-section loop: each placed visual consumes exactly one fresh
`usedVisuals` key, so the key list grows by exactly the number of placed
sections and stays duplicate-free. -/
theorem procPlan_inv (fs : List FlowR) (ds : List DiagR) (cs : List String) :
    ∀ pss used,
      (procPlan fs ds cs pss used).2.length =
        used.length + placedCount (procPlan fs ds cs pss used).1 ∧
      (used.Nodup → (procPlan fs ds cs pss used).2.Nodup) := by
  intro pss
  induction pss with
  | nil =>
    intro used
    rw [procPlan]
    exact ⟨by simp [placedCount_nil], fun h => h⟩
  | cons ps rest ih =>
    intro used
    rw [procPlan]
    by_cases hI : ps.includeImage = true
    · rw [if_pos hI]
      cases hpv : pickVis fs ds cs ps used with
      | some r =>
        obtain ⟨k, b, cap, isFl⟩ := r
        dsimp only
        cases hrec : procPlan fs ds cs rest (k :: used) with
        | mk ss u =>
          dsimp only
          obtain ⟨h1, h2⟩ := ih (k :: used)
          rw [hrec] at h1 h2
          dsimp only at h1 h2
          constructor
          · rw [placedCount_cons]
            dsimp only
            rw [show (if (some b : Option Buffer).isSome = true then (1:ℕ) else 0) = 1 from rfl]
            rw [List.length_cons] at h1
            omega
          · intro hn
            apply h2
            rw [List.nodup_cons]
            refine ⟨?_, hn⟩
            intro hmem
            have := (keyMem_iff k used).mpr hmem
            rw [pickVis_fresh fs ds cs ps used k b cap isFl hpv] at this
            exact Bool.noConfusion this
      | none =>
        dsimp only
        cases hrec : procPlan fs ds cs rest used with
        | mk ss u =>
          dsimp only
          obtain ⟨h1, h2⟩ := ih used
          rw [hrec] at h1 h2
          dsimp only at h1 h2
          constructor
          · rw [placedCount_cons]
            dsimp only
            rw [show (if (none : Option Buffer).isSome = true then (1:ℕ) else 0) = 0 from rfl]
            omega
          · exact h2
    · rw [if_neg hI]
      dsimp only
      cases hrec : procPlan fs ds cs rest used with
      | mk ss u =>
        dsimp only
        obtain ⟨h1, h2⟩ := ih used
        rw [hrec] at h1 h2
        dsimp only at h1 h2
        constructor
        · rw [placedCount_cons]
          dsimp only
          rw [show (if (none : Option Buffer).isSome = true then (1:ℕ) else 0) = 0 from rfl]
          omega
        · exact h2

/-- The trailing unused-flowchart pass: the key list grows by exactly
the number of appended sections, stays duplicate-free, keeps every
previously used key, and ends up containing the key of every buffered
flowchart. -/
theorem appendUnused_inv :
    ∀ (fs : List FlowR) (i cnt : ℕ) (used : List VKey),
      ((appendUnusedGo fs i cnt used).2.length =
        used.length + placedCount (appendUnusedGo fs i cnt used).1) ∧
      (used.Nodup → (appendUnusedGo fs i cnt used).2.Nodup) ∧
      (∀ k ∈ used, k ∈ (appendUnusedGo fs i cnt used).2) ∧
      (∀ j f, fs.get? j = some f → f.buffer.isSome = true →
        (true, i + j) ∈ (appendUnusedGo fs i cnt used).2) := by
  intro fs
  induction fs with
  | nil =>
    intro i cnt used
    rw [appendUnusedGo]
    refine ⟨by simp [placedCount_nil], fun h => h, fun k hk => hk, ?_⟩
    intro j f hj hb
    exact Option.noConfusion hj
  | cons f rest ih =>
    intro i cnt used
    rw [appendUnusedGo]
    cases hb : f.buffer with
    | none =>
      obtain ⟨h1, h2, h3, h4⟩ := ih (i + 1) cnt used
      refine ⟨h1, h2, h3, ?_⟩
      intro j g hj hbs
      cases j with
      | zero =>
        cases hj
        rw [hb] at hbs
        exact Bool.noConfusion hbs
      | succ j2 =>
        have hidx : i + (j2 + 1) = (i + 1) + j2 := by omega
        rw [hidx]
        exact h4 j2 g hj hbs
    | some bb =>
      dsimp only
      by_cases hk : keyMem (true, i) used = true
      · rw [if_pos hk]
        obtain ⟨h1, h2, h3, h4⟩ := ih (i + 1) cnt used
        refine ⟨h1, h2, h3, ?_⟩
        intro j g hj hbs
        cases j with
        | zero =>
          have : (true, i) ∈ used := (keyMem_iff _ used).mp hk
          exact h3 _ this
        | succ j2 =>
          have hidx : i + (j2 + 1) = (i + 1) + j2 := by omega
          rw [hidx]
          exact h4 j2 g hj hbs
      · rw [if_neg hk]
        cases hrec : appendUnusedGo rest (i + 1) (cnt + 1) ((true, i) :: used) with
        | mk ss2 u2 =>
          dsimp only
          obtain ⟨h1, h2, h3, h4⟩ := ih (i + 1) (cnt + 1) ((true, i) :: used)
          rw [hrec] at h1 h2 h3 h4
          dsimp only at h1 h2 h3 h4
          refine ⟨?_, ?_, ?_, ?_⟩
          · rw [placedCount_cons]
            dsimp only
            rw [show (if (some bb : Option Buffer).isSome = true then (1:ℕ) else 0) = 1 from rfl]
            rw [List.length_cons] at h1
            omega
          · intro hn
            apply h2
            rw [List.nodup_cons]
            refine ⟨?_, hn⟩
            intro hmem
            exact hk ((keyMem_iff _ used).mpr hmem)
          · intro k hkm
            exact h3 k (List.mem_cons_of_mem _ hkm)
          · intro j g hj hbs
            cases j with
            | zero =>
              exact h3 (true, i + 0) (List.mem_cons_self _ _)
            | succ j2 =>
              have hidx : i + (j2 + 1) = (i + 1) + j2 := by omega
              rw [hidx]
              exact h4 j2 g hj hbs

/-- The plan path as a whole: placements equal distinct used keys, the
used-key list is duplicate-free, and every buffered flowchart's key is
consumed. -/
theorem planSections_inv (fs : List FlowR) (ds : List DiagR) (cs : List String)
    (pss : List PlanSec) :
    placedCount (planSections fs ds cs pss).1 = (planSections fs ds cs pss).2.length ∧
    (planSections fs ds cs pss).2.Nodup ∧
    (∀ j f, fs.get? j = some f → f.buffer.isSome = true →
      (true, j) ∈ (planSections fs ds cs pss).2) := by
  rw [planSections]
  cases hp : procPlan fs ds cs pss [] with
  | mk ss used =>
    dsimp only
    cases ha : appendUnusedGo fs 0 0 used with
    | mk extra u2 =>
      dsimp only
      obtain ⟨hp1, hp2⟩ := procPlan_inv fs ds cs pss []
      rw [hp] at hp1 hp2
      dsimp only at hp1 hp2
      obtain ⟨h1, h2, h3, h4⟩ := appendUnused_inv fs 0 0 used
      rw [ha] at h1 h2 h3 h4
      dsimp only at h1 h2 h3 h4
      refine ⟨?_, ?_, ?_⟩
      · rw [placedCount_append]
        rw [List.length_nil] at hp1
        omega
      · exact h2 (hp2 List.nodup_nil)
      · intro j f hj hbs
        have := h4 j f hj hbs
        rwa [Nat.zero_add] at this

theorem diagFallback_count (cs : List String) :
    ∀ ds i, (∀ d ∈ ds, d.buffer.isSome = true) →
      placedCount (diagFallback cs i ds) = ds.length := by
  intro ds
  induction ds with
  | nil => intro i hall; rfl
  | cons g rest ih =>
    intro i hall
    rw [diagFallback]
    cases hb : g.buffer with
    | none =>
      have := hall g (List.mem_cons_self _ _)
      rw [hb] at this
      exact Bool.noConfusion this
    | some bb =>
      dsimp only
      rw [placedCount_cons]
      dsimp only
      rw [show (if (some bb : Option Buffer).isSome = true then (1:ℕ) else 0) = 1 from rfl]
      rw [ih (i + 1) (fun d hd => hall d (List.mem_cons_of_mem _ hd))]
      rw [List.length_cons]

theorem flowFallback_count :
    ∀ fs, (∀ f ∈ fs, f.buffer.isSome = true) →
      placedCount (flowFallback fs) = fs.length := by
  intro fs
  induction fs with
  | nil => intro hall; rfl
  | cons f rest ih =>
    intro hall
    rw [flowFallback]
    cases hb : f.buffer with
    | none =>
      have := hall f (List.mem_cons_self _ _)
      rw [hb] at this
      exact Bool.noConfusion this
    | some bb =>
      dsimp only
      rw [placedCount_cons]
      dsimp only
      rw [show (if (some bb : Option Buffer).isSome = true then (1:ℕ) else 0) = 1 from rfl]
      rw [ih (fun f2 hf2 => hall f2 (List.mem_cons_of_mem _ hf2))]
      rw [List.length_cons]

/-- C1: refuted on the plan path — one buffered diagram, no flowcharts,
and a plan whose only section does not request an image: the assembled
document contains zero image placements while N + M = 1.  After the plan
loop, only unused *flowcharts* are appended as extra sections (lines
868–890); unused diagrams are silently dropped. -/
theorem C1_counterexample :
    placedCount (buildContent (NoteData.mk "" []) [DiagR.mk (some [0])] []
      (some (Plan.mk "T" [PlanSec.mk "S" "body" false ""]))).sections = 0 ∧
    [DiagR.mk (some [0])].length + ([] : List FlowR).length = 1 ∧
    (DiagR.mk (some [0])).buffer.isSome = true :=
  ⟨by decide, by decide, by decide⟩

/-- C1 (amended): the positional fallback conserves visuals exactly —
with all buffers decodable it places exactly N + M images.  On the plan
path no visual is ever placed twice (each placement consumes one fresh
`usedVisuals` key: placements = distinct used keys, and the key list is
duplicate-free) and every buffered flowchart is placed exactly once; but
diagrams not claimed by any `includeImage` section are dropped, so the
plan path can place fewer than N + M visuals. -/
theorem C1_amended (nd : NoteData) (ds : List DiagR) (fs : List FlowR) (pss : List PlanSec)
    (hd : ∀ d ∈ ds, d.buffer.isSome = true) (hf : ∀ f ∈ fs, f.buffer.isSome = true) :
    placedCount (fallbackContent nd ds fs).sections = ds.length + fs.length ∧
    placedCount (planSections fs ds nd.concepts_diagram pss).1 =
      (planSections fs ds nd.concepts_diagram pss).2.length ∧
    (planSections fs ds nd.concepts_diagram pss).2.Nodup ∧
    ∀ j f, fs.get? j = some f →
      (true, j) ∈ (planSections fs ds nd.concepts_diagram pss).2 := by
  refine ⟨?_, (planSections_inv fs ds nd.concepts_diagram pss).1,
    (planSections_inv fs ds nd.concepts_diagram pss).2.1, ?_⟩
  · rw [fallbackContent]
    dsimp only
    rw [placedCount_cons]
    dsimp only
    rw [show (if (none : Option Buffer).isSome = true then (1:ℕ) else 0) = 0 from rfl]
    rw [placedCount_append, diagFallback_count nd.concepts_diagram ds 0 hd,
      flowFallback_count fs hf]
    omega
  · intro j f hj
    exact (planSections_inv fs ds nd.concepts_diagram pss).2.2 j f hj
      (hf f (List.get?_mem hj))

def c1nd : NoteData := ⟨"", []⟩

def c1ds : List DiagR := [⟨some [0]⟩]

def c1fs : List FlowR := [⟨"F", some [1]⟩]

def c1pss : List PlanSec := [⟨"S", "body", true, ""⟩]

/-- Witness for C1 (amended) on one diagram, one flowchart and a plan
with a single image-requesting section. -/
theorem C1_amended_witness :
    placedCount (fallbackContent c1nd c1ds c1fs).sections = c1ds.length + c1fs.length ∧
    placedCount (planSections c1fs c1ds c1nd.concepts_diagram c1pss).1 =
      (planSections c1fs c1ds c1nd.concepts_diagram c1pss).2.length ∧
    (planSections c1fs c1ds c1nd.concepts_diagram c1pss).2.Nodup ∧
    (true, 0) ∈ (planSections c1fs c1ds c1nd.concepts_diagram c1pss).2 :=
  ⟨(C1_amended c1nd c1ds c1fs c1pss (by decide) (by decide)).1,
   (C1_amended c1nd c1ds c1fs c1pss (by decide) (by decide)).2.1,
   (C1_amended c1nd c1ds c1fs c1pss (by decide) (by decide)).2.2.1,
   (C1_amended c1nd c1ds c1fs c1pss (by decide) (by decide)).2.2.2 0
     (FlowR.mk "F" (some [1])) rfl⟩
